import Mathlib

/-!
Verification of the index generator (`src/generator/generate_index.py`).

The script builds a searchable index of package metadata from tagged releases
on a hosting provider. The development below shallowly embeds:

* the version filter (`re.match` against `VERSION_REGEX`),
* the per-package / per-tag indexing engine of `main` (cache refresh,
  tag filtering, metadata fetch, index merge, statistics),

and proves or refutes the specified properties of the script.

Conventions of the embedding:

* HTTP responses are environment data: tag-listing and metadata responses are
  given by a `Provider` (a pair of response functions); header values are
  strings, as the `requests` library exposes them.
* A raised, uncaught Python exception is modelled as the `crash` outcome,
  `sys.exit(n)` as `exit n`, and normal completion (the index gets written,
  the process exits 0) as `ok`.
* Python dictionaries are association lists keyed by strings; assignment
  replaces in place or appends, matching insertion-order semantics.
-/

/-! ## Version filter

The script defines `VERSION_REGEX = "^v[\d]+\.[\d]+\.[\d]+$"` and accepts a
tag iff `re.match(VERSION_REGEX, tag)` is truthy. The matcher below embeds
that regex: a literal `v`, three runs of one-or-more digits separated by dots,
then `$`. Pythons `$` accepts the end of the string or a position just before
a trailing newline, which the embedding reproduces. The character class `\d`
is embedded as the ASCII digits (on the ASCII tag names this program handles
they coincide; the additional Unicode decimal digits Python would also accept
are outside the inputs of interest). Since a digit is never a dot, the greedy
`[\d]+` runs of the regex never backtrack, so the deterministic
longest-munch matcher below is exact.
-/

/-- ASCII digit test, embedding of the regex class matching a digit. -/
def isAsciiDigit (c : Char) : Bool := '0' ≤ c && c ≤ '9'

/-- Greedily consume leading digits (the longest-munch step of a digit run). -/
def dropDigits : List Char → List Char
  | [] => []
  | c :: cs => if isAsciiDigit c then dropDigits cs else c :: cs

/-- Match one-or-more digits at the front, returning the rest on success. -/
def matchNum : List Char → Option (List Char)
  | [] => none
  | c :: cs => if isAsciiDigit c then some (dropDigits cs) else none

/-- Match a literal dot at the front. -/
def matchDot : List Char → Option (List Char)
  | [] => none
  | c :: cs => if c = '.' then some cs else none

/-- Embedding of the `$` anchor: end of input, or a single trailing newline. -/
def matchDollar (cs : List Char) : Bool := cs.isEmpty || cs == ['\n']

/-- Match digits, dot, digits, dot, digits, then the `$` anchor. -/
def matchTriple (cs : List Char) : Bool :=
  match matchNum cs with
  | none => false
  | some r1 =>
    match matchDot r1 with
    | none => false
    | some r2 =>
      match matchNum r2 with
      | none => false
      | some r3 =>
        match matchDot r3 with
        | none => false
        | some r4 =>
          match matchNum r4 with
          | none => false
          | some r5 => matchDollar r5

/-- Embedding of `re.match(VERSION_REGEX, tag)` being truthy, with
`VERSION_REGEX = "^v[\d]+\.[\d]+\.[\d]+$"`. -/
def isValidVersion (s : String) : Bool :=
  match s.data with
  | [] => false
  | c :: cs => c == 'v' && matchTriple cs

/-! ### Spec-side version predicate

Modelled from the spec wording, for comparison with the matcher above: a tag
is valid iff it is the character `v` followed by exactly three dot-separated
nonempty runs of decimal digits and nothing else. -/

/-- Split a character list on the dot character (like a split on a dot). -/
def splitDots : List Char → List (List Char)
  | [] => [[]]
  | c :: cs =>
    if c = '.' then [] :: splitDots cs
    else
      match splitDots cs with
      | [] => [[c]]
      | g :: gs => (c :: g) :: gs

/-- A nonempty run of decimal digits. -/
def digitsGroup (l : List Char) : Bool := !l.isEmpty && l.all isAsciiDigit

/-- Spec-side body: exactly three dot-separated nonempty digit runs. -/
def specTriple (cs : List Char) : Bool :=
  match splitDots cs with
  | [a, b, c] => digitsGroup a && digitsGroup b && digitsGroup c
  | _ => false

/-- Spec-side predicate, from the spec words: the tag is `v` followed by
exactly three dot-separated non-negative decimal integers and nothing else. -/
def specValidVersion (s : String) : Bool :=
  match s.data with
  | [] => false
  | c :: cs => c == 'v' && specTriple cs

/-- Remove one trailing newline character, if present. -/
def stripTrailingNewline : List Char → List Char
  | [] => []
  | c :: cs =>
    match cs with
    | [] => if c = '\n' then [] else [c]
    | _ :: _ => c :: stripTrailingNewline cs

/-- The spec-side predicate amended by the Python `$` quirk: a single
trailing newline is also tolerated. -/
def specValidVersionNL (s : String) : Bool :=
  match s.data with
  | [] => false
  | c :: cs => c == 'v' && specTriple (stripTrailingNewline cs)

/-! ### Lemmas relating the matcher to the spec-side predicate -/

/-- The rest of the input after a digit run starts with a non-digit. -/
def headNotDigit : List Char → Prop
  | [] => True
  | c :: _ => isAsciiDigit c = false

/-- Join groups back with dots: the inverse of `splitDots`. -/
def dotJoin : List (List Char) → List Char
  | [] => []
  | g :: gs =>
    match gs with
    | [] => g
    | _ :: _ => g ++ '.' :: dotJoin gs

/-! ## Indexing engine

Embedding of `main` from `src/generator/generate_index.py`. The command-line
and file plumbing (argument parsing, reading the packages file, loading the
cache and index files) is outside the engine; the engine is modelled as a
function of the package list, the loaded cache, the loaded index, and the
provider (the HTTP collaborator). A raised Python exception is `crash`,
`sys.exit(n)` is `exit n`, and completion (after which the index is written
and the process exits 0) is `ok`.
-/

/-- One entry of the packages file. -/
structure PackageDesc where
  id : String
  git_provider : String
  git_owner : String
  git_repository : String
  icon : String
deriving DecidableEq

/-- One entry of the cache file: the stored ETag header and the stored raw
tag-listing body. The body is a JSON list of objects carrying a `ref` field;
it is modelled as the list of those `ref` strings. -/
structure CacheEntry where
  etag : String
  content : List String
deriving DecidableEq

/-- A tag-listing HTTP response. Header values are strings, as the `requests`
library exposes them; a missing header is `none` (reading it raises KeyError).
`body` is the decoded JSON body (the list of `ref` strings); `none` means the
body does not decode (`response.json()` raises). -/
structure TagsHttpResponse where
  status : Nat
  etagHeader : Option String
  rateLimitRemaining : Option String
  body : Option (List String)
deriving DecidableEq

/-- A compatibility range for one tool: minimum and maximum version. -/
structure CompatRange where
  minimum : String
  maximum : String
deriving DecidableEq

/-- A decoded, well-formed `metadata.json` document: the fields the script
reads. `dependencies` is the `dependencies.packages` mapping; `compatibility`
is the optional `compatibility` mapping from tool name to range. -/
structure Metadata where
  name : String
  description : String
  dependencies : List (String × String)
  compatibility : Option (List (String × CompatRange))
deriving DecidableEq

/-- The decoded JSON body of a metadata response: either a value of length
zero (such as an empty object, caught by the `len(metadata) == 0` check), or
a non-empty object with the expected fields. -/
inductive MetaJson where
  | emptyDoc
  | doc (m : Metadata)
deriving DecidableEq

/-- A metadata HTTP response; `body = none` means the body does not decode
(`response.json()` raises). -/
structure MetaHttpResponse where
  status : Nat
  body : Option MetaJson
deriving DecidableEq

/-- The HTTP collaborator: tag-listing responses keyed by package id and the
`If-None-Match` header sent (the cached ETag, if any), and metadata responses
keyed by package id and tag. -/
structure Provider where
  tags : String → Option String → TagsHttpResponse
  meta : String → String → MetaHttpResponse

/-- Python `==` between a `str` and an `int`: values of different types are
never equal (there is no coercion between `str` and `int`). -/
inductive PyVal where
  | str (s : String)
  | int (n : Int)
deriving DecidableEq

/-- Python equality on such values. -/
def pyEq : PyVal → PyVal → Bool
  | .str a, .str b => a == b
  | .int a, .int b => a == b
  | _, _ => false

/-- `NO_COMPATIBILITY_DATA` of the script. -/
def NO_COMPATIBILITY_DATA : List (String × CompatRange) :=
  [("compose", { minimum := "v0.0.0", maximum := "v0.9.9" })]

/-- Association list lookup (Python dictionary read, absent key gives none). -/
def lookupA {α : Type} (k : String) : List (String × α) → Option α
  | [] => none
  | (k2, v) :: rest => if k2 = k then some v else lookupA k rest

/-- Association list assignment (Python dictionary write: replace in place,
else append). -/
def setA {α : Type} (k : String) (v : α) : List (String × α) → List (String × α)
  | [] => [(k, v)]
  | (k2, v2) :: rest => if k2 = k then (k2, v) :: rest else (k2, v2) :: setA k v rest

/-- Update the value at a key in place, if present. -/
def updA {α : Type} (k : String) (f : α → α) : List (String × α) → List (String × α)
  | [] => []
  | (k2, v2) :: rest => if k2 = k then (k2, f v2) :: rest else (k2, v2) :: updA k f rest

/-- Split a character list on the slash character (Python split on a slash:
never empty, keeps empty segments). -/
def splitSlash : List Char → List (List Char)
  | [] => [[]]
  | c :: cs =>
    if c = '/' then [] :: splitSlash cs
    else
      match splitSlash cs with
      | [] => [[c]]
      | g :: gs => (c :: g) :: gs

/-- `b['ref'].split('/')[-1]`: the last path segment of a ref string. -/
def lastSegment (ref : String) : String :=
  String.mk ((splitSlash ref.data).getLastD [])

/-- The `git` object stored in a package record. -/
structure GitCoords where
  provider : String
  owner : String
  repository : String
deriving DecidableEq

/-- One version record of the index: `dependencies` and `compatibility`. -/
structure VersionInfo where
  dependencies : List (String × String)
  compatibility : List (String × CompatRange)
deriving DecidableEq

/-- One package record of the index. `name` and `description` are absent
until the first successful metadata fetch writes them. -/
structure PackageRecord where
  git : GitCoords
  icon : String
  name : Option String
  description : Option String
  versions : List (String × VersionInfo)
deriving DecidableEq

/-- The `packages` mapping of the index document. -/
abbrev IndexDoc := List (String × PackageRecord)

/-- The run statistics of the script. -/
structure Stats where
  hits : Nat
  misses : Nat
  numPackages : Nat
deriving DecidableEq

/-- Observable engine events, recorded in order: a fresh tag-listing fetch
(HTTP 200), a tag-listing served from cache (HTTP 304), a metadata fetch
issued for a tag, and a tag skipped because its version record exists. -/
inductive Event where
  | tagsFetched (pid : String)
  | tagsCached (pid : String)
  | metaFetch (pid : String) (tag : String)
  | versionCached (pid : String) (tag : String)
deriving DecidableEq

/-- The mutable state of a run. -/
structure RunState where
  cache : List (String × CacheEntry)
  index : IndexDoc
  stats : Stats
  trace : List Event
deriving DecidableEq

/-- Result of a (partial) run: normal progress, `sys.exit(code)`, or an
uncaught Python exception. The carried state is the state at that point. -/
inductive StepResult where
  | ok (s : RunState)
  | exit (code : Nat) (s : RunState)
  | crash (s : RunState)
deriving DecidableEq

/-- The state carried by a step result. -/
def resultState : StepResult → RunState
  | .ok s => s
  | .exit _ s => s
  | .crash s => s

/-- The chosen compatibility data: `metadata['compatibility']` when present
with a `compose` entry, else `NO_COMPATIBILITY_DATA`. -/
def compatFor (m : Metadata) : List (String × CompatRange) :=
  match m.compatibility with
  | some compat => if (lookupA "compose" compat).isSome then compat
                   else NO_COMPATIBILITY_DATA
  | none => NO_COMPATIBILITY_DATA

/-- The index update applied when metadata is fetched and decoded: overwrite
`name` and `description` from the metadata, then store the new version record
(`dependencies` from the metadata, compatibility via `compatFor`). -/
def recordUpd (tag : String) (m : Metadata) (rec2 : PackageRecord) : PackageRecord :=
  { rec2 with
    name := some m.name,
    description := some m.description,
    versions := setA tag
      { dependencies := m.dependencies, compatibility := compatFor m } rec2.versions }

/-- The state after a version cache hit (`tag in ...['versions']`). -/
def hitState (p : PackageDesc) (tag : String) (s : RunState) : RunState :=
  { s with stats := { s.stats with hits := s.stats.hits + 1 },
           trace := s.trace ++ [.versionCached p.id tag] }

/-- The state after counting a miss and issuing the metadata fetch. -/
def missState (p : PackageDesc) (tag : String) (s : RunState) : RunState :=
  { s with stats := { s.stats with misses := s.stats.misses + 1 },
           trace := s.trace ++ [.metaFetch p.id tag] }

/-- The per-tag body of the loop `for tag in tags` in `main`. Returns the new
state, or the state at an uncaught exception. -/
def processTag (prov : Provider) (p : PackageDesc) (tag : String) (s : RunState) :
    Except RunState RunState :=
  -- if not re.match(VERSION_REGEX, tag): continue
  if isValidVersion tag then
    match lookupA p.id s.index with
    | none => .error s  -- index['packages'][id] would raise KeyError (unreachable)
    | some rec =>
      -- if tag in index['packages'][id]['versions']: count a hit and continue
      if (lookupA tag rec.versions).isSome then .ok (hitState p tag s)
      else
        -- stats['cache']['misses'] += 1, then requests.get(metadata_url)
        let s1 : RunState := missState p tag s
        let r := prov.meta p.id tag
        -- if response.status_code == 404: continue
        if r.status == 404 then .ok s1
        else
          -- metadata = \x7b\x7d, overwritten by response.json() on HTTP 200
          match (if r.status == 200 then r.body else some .emptyDoc) with
          | none => .error s1  -- response.json() raised
          | some .emptyDoc => .ok s1  -- len(metadata) == 0: skip this tag
          | some (.doc m) =>
            -- update name/description, then store the new version record
            .ok { s1 with index := updA p.id (recordUpd tag m) s1.index }
  else .ok s

/-- The tag loop of `main`. -/
def processTags (prov : Provider) (p : PackageDesc) :
    List String → RunState → Except RunState RunState
  | [], s => .ok s
  | t :: ts, s =>
    match processTag prov p t s with
    | .error s2 => .error s2
    | .ok s2 => processTags prov p ts s2

/-- The package record created when a package id first enters the index:
`git` coordinates and icon from the descriptor, no name, no description,
no versions. -/
def headerRec (p : PackageDesc) : PackageRecord :=
  { git := { provider := p.git_provider, owner := p.git_owner,
             repository := p.git_repository },
    icon := p.icon, name := none, description := none, versions := [] }

/-- The tail of the per-package body once the tag list is at hand: create the
package header if absent, then run the tag loop and count the package. -/
def tagsPhase (prov : Provider) (p : PackageDesc) (entry : CacheEntry)
    (s2 : RunState) : StepResult :=
  -- tags = [b['ref'].split('/')[-1] for b in cache[id]['Content']]
  match processTags prov p (entry.content.map lastSegment)
      (if (lookupA p.id s2.index).isSome then s2
       else { s2 with index := s2.index ++ [(p.id, headerRec p)] }) with
  | .error s4 => .crash s4
  | .ok s4 =>
    .ok { s4 with stats := { s4.stats with numPackages := s4.stats.numPackages + 1 } }

/-- The tag-listing response a package receives at a state: the GET carries
the If-None-Match header holding the cached ETag, when a cache entry exists. -/
def listingResp (prov : Provider) (p : PackageDesc) (s : RunState) : TagsHttpResponse :=
  prov.tags p.id ((lookupA p.id s.cache).map CacheEntry.etag)

/-- The state after a fresh (HTTP 200) tag-listing fetch: the new cache entry
is stored (and the cache file written), a cache miss is counted. -/
def freshState (p : PackageDesc) (entry : CacheEntry) (s : RunState) : RunState :=
  { s with cache := setA p.id entry s.cache,
           stats := { s.stats with misses := s.stats.misses + 1 },
           trace := s.trace ++ [.tagsFetched p.id] }

/-- The state after a not-modified (HTTP 304) tag-listing response: a cache
hit is counted, the cache is untouched. -/
def cachedState (p : PackageDesc) (s : RunState) : RunState :=
  { s with stats := { s.stats with hits := s.stats.hits + 1 },
           trace := s.trace ++ [.tagsCached p.id] }

/-- The bookkeeping after the listing response: store the new entry and count
a miss if the response was fresh, then count a hit if it was not-modified. -/
def listingUpd (p : PackageDesc) (newEntry : Option CacheEntry) (is304 : Bool)
    (s : RunState) : RunState :=
  match newEntry with
  | some entry => if is304 then cachedState p (freshState p entry s)
                  else freshState p entry s
  | none => if is304 then cachedState p s else s

/-- The per-package body of the loop `for package in packages` in `main`. -/
def processPackage (prov : Provider) (p : PackageDesc) (s : RunState) : StepResult :=
  -- GIT_PROVIDER_TO_TAGS_URL[provider]: an unknown provider raises KeyError,
  -- and the bitbucket placeholder is not a URL, so requests.get raises; only
  -- the github template yields a request that reaches the provider.
  if p.git_provider = "github.com" then
    -- if response.status_code == 401 and
    --    response.headers['X-RateLimit-Remaining'] == 0: sys.exit(1)
    match (if (listingResp prov p s).status == 401 then
             match (listingResp prov p s).rateLimitRemaining with
             | none => none  -- KeyError: header absent
             | some v => some (pyEq (.str v) (.int 0))
           else some false : Option Bool) with
    | none => .crash s
    | some true => .exit 1 s
    | some false =>
      -- if response.status_code == 404: sys.exit(2)
      if (listingResp prov p s).status == 404 then .exit 2 s
      else
        -- if response.status_code == 200: update stats and cache
        match (if (listingResp prov p s).status == 200 then
                 match (listingResp prov p s).etagHeader,
                       (listingResp prov p s).body with
                 | some e, some content => some (some (CacheEntry.mk e content))
                 | _, _ => none  -- missing ETag header or undecodable body
               else some none : Option (Option CacheEntry)) with
        | none => .crash s
        | some newEntry =>
          -- tags come from cache[id]['Content']; cache[id] may still be None
          match lookupA p.id
              (listingUpd p newEntry ((listingResp prov p s).status == 304) s).cache with
          | none =>  -- None['Content'] raises TypeError
            .crash (listingUpd p newEntry ((listingResp prov p s).status == 304) s)
          | some entry =>
            tagsPhase prov p entry
              (listingUpd p newEntry ((listingResp prov p s).status == 304) s)
  else .crash s

/-- The package loop of `main`: processes packages in order, stopping at the
first `sys.exit` or uncaught exception. -/
def runPackages (prov : Provider) : List PackageDesc → RunState → StepResult
  | [], s => .ok s
  | p :: ps, s =>
    match processPackage prov p s with
    | .ok s2 => runPackages prov ps s2
    | r => r

/-- The engine applied to freshly loaded state: zero statistics, empty trace. -/
def initState (cache0 : List (String × CacheEntry)) (index0 : IndexDoc) : RunState :=
  { cache := cache0, index := index0,
    stats := { hits := 0, misses := 0, numPackages := 0 }, trace := [] }

/-- A whole engine run from loaded cache and index. -/
def runEngine (prov : Provider) (pkgs : List PackageDesc)
    (cache0 : List (String × CacheEntry)) (index0 : IndexDoc) : StepResult :=
  runPackages prov pkgs (initState cache0 index0)

/-- The process exit code of a result: 0 on completion, the `sys.exit` code,
and none for an uncaught exception (a crash with a traceback). -/
def exitCodeOf : StepResult → Option Nat
  | .ok _ => some 0
  | .exit c _ => some c
  | .crash _ => none

/-- The version record stored for a package and tag, if any. -/
def versionOf (idx : IndexDoc) (pid tag : String) : Option VersionInfo :=
  match lookupA pid idx with
  | none => none
  | some r => lookupA tag r.versions

/-! ### Branch equations of the per-tag body -/

/-- A metadata response that the script skips without recording a version:
HTTP 404, or a body that decodes to a length-zero value on HTTP 200, or any
status other than 200 and 404 (then `metadata` stays the empty dictionary and
the `len(metadata) == 0` check skips the tag). -/
def metaSkipped (r : MetaHttpResponse) : Bool :=
  r.status == 404 || (if r.status == 200 then r.body == some .emptyDoc else true)

/-! ### The preservation invariant

Engine steps never change the `git` coordinates or `icon` of an existing
package record, never remove or overwrite a stored version record, and only
issue a metadata fetch for a valid tag whose version record is absent. -/

/-- The state carried by a per-tag result (the state at the raise on error). -/
def exceptState : Except RunState RunState → RunState
  | .ok s => s
  | .error s => s

/-- The step invariant relating a state to a later state. -/
def Preserves (s s2 : RunState) : Prop :=
  (∀ pid r, lookupA pid s.index = some r →
      ∃ r2, lookupA pid s2.index = some r2 ∧ r2.git = r.git ∧ r2.icon = r.icon ∧
        ∀ tg vi, lookupA tg r.versions = some vi → lookupA tg r2.versions = some vi) ∧
  (∃ new, s2.trace = s.trace ++ new ∧
      ∀ pid tg, Event.metaFetch pid tg ∈ new →
        isValidVersion tg = true ∧ versionOf s.index pid tg = none)

/-- Concrete data for the C2 witness. -/
def w2vi : VersionInfo := { dependencies := [], compatibility := NO_COMPATIBILITY_DATA }

def w2rec : PackageRecord :=
  { git := { provider := "github.com", owner := "o", repository := "r" },
    icon := "i", name := some "N", description := some "D",
    versions := [("v1.0.0", w2vi)] }

def w2state : RunState :=
  { cache := [("a", { etag := "E", content := ["refs/tags/v1.0.0"] })],
    index := [("a", w2rec)],
    stats := { hits := 0, misses := 0, numPackages := 0 }, trace := [] }

def w2prov : Provider :=
  { tags := fun _ _ => ⟨304, none, none, none⟩,
    meta := fun _ _ => ⟨404, none⟩ }

def w2pkg : PackageDesc :=
  { id := "a", git_provider := "github.com", git_owner := "o",
    git_repository := "r", icon := "i" }

def w9prov : Provider :=
  { tags := fun _ _ => ⟨200, some "E", none, some ["refs/tags/v1.0.0", "refs/tags/main"]⟩,
    meta := fun _ _ => ⟨404, none⟩ }

def w9pkg : PackageDesc :=
  { id := "a", git_provider := "github.com", git_owner := "o",
    git_repository := "r", icon := "i" }

def w4prov : Provider :=
  { tags := fun _ _ => ⟨404, none, none, none⟩,
    meta := fun _ _ => ⟨404, none⟩ }

def w4pkg : PackageDesc :=
  { id := "a", git_provider := "github.com", git_owner := "o",
    git_repository := "r", icon := "i" }

def w4pkg2 : PackageDesc :=
  { id := "b", git_provider := "github.com", git_owner := "o",
    git_repository := "r", icon := "i" }

/-! ### Concrete providers, packages and states used by the claim theorems,
witnesses and counterexamples below -/

/-- The code condition `'compatibility' in metadata and 'compose' in
metadata['compatibility']`. -/
def hasComposeEntry (m : Metadata) : Bool :=
  match m.compatibility with
  | some compat => (lookupA "compose" compat).isSome
  | none => false

def w7meta : Metadata :=
  { name := "Demo", description := "d", dependencies := [("dep", "v1")],
    compatibility := none }

def w7prov : Provider :=
  { tags := fun _ _ => ⟨200, some "E", none, some ["refs/tags/v1.0.0"]⟩,
    meta := fun _ _ => ⟨200, some (.doc w7meta)⟩ }

def w7pkg : PackageDesc :=
  { id := "a", git_provider := "github.com", git_owner := "o",
    git_repository := "r", icon := "i" }

def w7state : RunState :=
  { cache := [], index := [("a", headerRec w7pkg)],
    stats := { hits := 0, misses := 0, numPackages := 0 }, trace := [] }

/-- C8 counterexample data: the package already has a record (loaded from a
previous index) whose icon and git coordinates differ from both the current
descriptor and anything in the fetched metadata. -/
def c8pkg : PackageDesc :=
  { id := "a", git_provider := "github.com", git_owner := "newowner",
    git_repository := "r", icon := "new" }

def c8oldrec : PackageRecord :=
  { git := { provider := "github.com", owner := "oldowner", repository := "r" },
    icon := "old", name := none, description := none, versions := [] }

def c8meta : Metadata :=
  { name := "Demo", description := "d", dependencies := [], compatibility := none }

def c8prov : Provider :=
  { tags := fun _ _ => ⟨200, some "E", none, some ["refs/tags/v1.0.0"]⟩,
    meta := fun _ _ => ⟨200, some (.doc c8meta)⟩ }

def w8state : RunState :=
  { cache := [], index := [("a", c8oldrec)],
    stats := { hits := 0, misses := 0, numPackages := 0 }, trace := [] }

def c3prov : Provider :=
  { tags := fun pid _ =>
      if pid = "a" then ⟨401, none, some "0", none⟩
      else ⟨200, some "E2", none, some []⟩,
    meta := fun _ _ => ⟨404, none⟩ }

def c3pkgA : PackageDesc :=
  { id := "a", git_provider := "github.com", git_owner := "o",
    git_repository := "r", icon := "i" }

def c3pkgB : PackageDesc :=
  { id := "b", git_provider := "github.com", git_owner := "o",
    git_repository := "r", icon := "i" }

def c3cache : List (String × CacheEntry) :=
  [("a", { etag := "E", content := ["refs/tags/v1.0.0"] })]

def c5meta : Metadata :=
  { name := "Demo", description := "d", dependencies := [], compatibility := none }

def c5prov : Provider :=
  { tags := fun _ _ => ⟨200, some "E", none,
      some ["refs/tags/v1.0.0", "refs/tags/v1.0.1"]⟩,
    meta := fun _ tag =>
      if tag = "v1.0.0" then ⟨200, none⟩ else ⟨200, some (.doc c5meta)⟩ }

def c5pkg : PackageDesc :=
  { id := "a", git_provider := "github.com", git_owner := "o",
    git_repository := "r", icon := "i" }

def w10prov : Provider :=
  { tags := fun _ _ => ⟨200, some "E", none,
      some ["refs/tags/v1.0.0", "refs/tags/main"]⟩,
    meta := fun _ _ => ⟨404, none⟩ }

def w10pkg : PackageDesc :=
  { id := "a", git_provider := "github.com", git_owner := "o",
    git_repository := "r", icon := "i" }

/-- After the engine has processed a package, the package is settled at the
state: it has a cache entry, it is present in the index, and every valid tag
of the cached tag list either has a version record or gets a skipped
metadata response from the provider. -/
def PkgSettled (prov : Provider) (pid : String) (s : RunState) : Prop :=
  ∃ e, lookupA pid s.cache = some e ∧ (lookupA pid s.index).isSome = true ∧
    ∀ t ∈ e.content.map lastSegment, isValidVersion t = true →
      (versionOf s.index pid t).isSome = true ∨
        metaSkipped (prov.meta pid t) = true

/-- Concrete data for the C1 witness: a one-package first run that records
the only valid tag, then a second run over the persisted state. -/
def c1meta : Metadata :=
  { name := "Demo", description := "d", dependencies := [], compatibility := none }

def c1pkg : PackageDesc :=
  { id := "a", git_provider := "github.com", git_owner := "o",
    git_repository := "r", icon := "i" }

def c1prov1 : Provider :=
  { tags := fun _ _ => ⟨200, some "E", none, some ["refs/tags/v1.0.0"]⟩,
    meta := fun _ _ => ⟨200, some (.doc c1meta)⟩ }

def c1prov2 : Provider :=
  { tags := fun _ _ => ⟨304, none, none, none⟩,
    meta := c1prov1.meta }

def c1s1 : RunState := resultState (runEngine c1prov1 [c1pkg] [] [])

/-- C1 counterexample data: the metadata fetch for the only valid tag fails
(HTTP 404) in both runs; the provider data is otherwise unchanged and the
second-run listing reports not-modified. -/
def c1xpkg : PackageDesc :=
  { id := "a", git_provider := "github.com", git_owner := "o",
    git_repository := "r", icon := "i" }

def c1xprov1 : Provider :=
  { tags := fun _ _ => ⟨200, some "E", none, some ["refs/tags/v1.0.0"]⟩,
    meta := fun _ _ => ⟨404, none⟩ }

def c1xprov2 : Provider :=
  { tags := fun _ _ => ⟨304, none, none, none⟩,
    meta := c1xprov1.meta }

def c1xs1 : RunState := resultState (runEngine c1xprov1 [c1xpkg] [] [])

example : isValidVersion "v1.2.3" = true := by decide
example : isValidVersion "v1.2" = false := by decide
example : isValidVersion "1.2.3" = false := by decide
example : isValidVersion "v1.2.3-beta" = false := by decide
example : isValidVersion "v1.2.3\n" = true := by decide
example : specValidVersion "v1.2.3\n" = false := by decide
example : specValidVersionNL "v1.2.3\n" = true := by decide
example : specValidVersion "v10.02.3" = true := by decide

theorem headNotDigit_dropDigits : ∀ cs : List Char, headNotDigit (dropDigits cs)
  | [] => trivial
  | c :: cs => by
    unfold dropDigits
    by_cases h : isAsciiDigit c = true
    · simpa [h] using headNotDigit_dropDigits cs
    · simp only [Bool.not_eq_true] at h
      simp [h, headNotDigit]

theorem dropDigits_split : ∀ cs : List Char,
    ∃ a, cs = a ++ dropDigits cs ∧ a.all isAsciiDigit = true
  | [] => ⟨[], rfl, rfl⟩
  | c :: cs => by
    unfold dropDigits
    by_cases h : isAsciiDigit c = true
    · obtain ⟨a, ha, hd⟩ := dropDigits_split cs
      exact ⟨c :: a, by simp [h, ← ha], by simp [h, hd]⟩
    · simp only [Bool.not_eq_true] at h
      exact ⟨[], by simp [h], rfl⟩

theorem dropDigits_append : ∀ a r : List Char,
    a.all isAsciiDigit = true → headNotDigit r → dropDigits (a ++ r) = r
  | [], r, _, hr => by
    cases r with
    | nil => rfl
    | cons c cs => simp only [headNotDigit] at hr; simp [dropDigits, hr]
  | c :: a, r, ha, hr => by
    simp only [List.all_cons, Bool.and_eq_true] at ha
    simp [dropDigits, ha.1, dropDigits_append a r ha.2 hr]

theorem matchNum_some_iff (cs r : List Char) :
    matchNum cs = some r ↔
      ∃ a, digitsGroup a = true ∧ headNotDigit r ∧ cs = a ++ r := by
  constructor
  · intro h
    cases cs with
    | nil => simp [matchNum] at h
    | cons c cs =>
      by_cases hc : isAsciiDigit c = true
      · simp only [matchNum, hc, if_pos] at h
        obtain ⟨a, ha, hd⟩ := dropDigits_split cs
        have hr : dropDigits cs = r := Option.some.inj h
        refine ⟨c :: a, ?_, ?_, ?_⟩
        · simp [digitsGroup, hc, hd]
        · rw [← hr]; exact headNotDigit_dropDigits cs
        · rw [hr] at ha; simp [ha]
      · simp only [Bool.not_eq_true] at hc
        simp [matchNum, hc] at h
  · rintro ⟨a, ha, hr, rfl⟩
    cases a with
    | nil => simp [digitsGroup] at ha
    | cons c a =>
      simp only [digitsGroup, List.all_cons, List.isEmpty_cons, Bool.not_false,
        Bool.true_and, Bool.and_eq_true] at ha
      simp [matchNum, ha.1, dropDigits_append a r ha.2 hr]

theorem matchDot_some_iff (cs r : List Char) :
    matchDot cs = some r ↔ cs = '.' :: r := by
  cases cs with
  | nil => simp [matchDot]
  | cons c cs =>
    by_cases hc : c = '.'
    · subst hc; simp [matchDot]
    · simp [matchDot, hc, Ne.symm hc]

theorem matchDollar_iff (cs : List Char) :
    matchDollar cs = true ↔ cs = [] ∨ cs = ['\n'] := by
  cases cs with
  | nil => simp [matchDollar]
  | cons c cs => simp [matchDollar]

/-- Characterization of the regex matcher as a decomposition of the input. -/
theorem matchTriple_iff (cs : List Char) :
    matchTriple cs = true ↔
      ∃ a b c t, digitsGroup a = true ∧ digitsGroup b = true ∧ digitsGroup c = true ∧
        (t = [] ∨ t = ['\n']) ∧ cs = a ++ '.' :: (b ++ '.' :: (c ++ t)) := by
  constructor
  · intro h
    unfold matchTriple at h
    split at h
    · exact absurd h (by simp)
    · rename_i r1 h1
      split at h
      · exact absurd h (by simp)
      · rename_i r2 h2
        split at h
        · exact absurd h (by simp)
        · rename_i r3 h3
          split at h
          · exact absurd h (by simp)
          · rename_i r4 h4
            split at h
            · exact absurd h (by simp)
            · rename_i r5 h5
              obtain ⟨a, hga, _, rfl⟩ := (matchNum_some_iff cs r1).mp h1
              obtain rfl := (matchDot_some_iff r1 r2).mp h2
              obtain ⟨b, hgb, _, rfl⟩ := (matchNum_some_iff r2 r3).mp h3
              obtain rfl := (matchDot_some_iff r3 r4).mp h4
              obtain ⟨c, hgc, _, rfl⟩ := (matchNum_some_iff r4 r5).mp h5
              exact ⟨a, b, c, r5, hga, hgb, hgc, (matchDollar_iff r5).mp h, rfl⟩
  · rintro ⟨a, b, c, t, hga, hgb, hgc, ht, rfl⟩
    have hdot : isAsciiDigit '.' = false := by decide
    have hnl : headNotDigit t := by
      rcases ht with rfl | rfl
      · trivial
      · show isAsciiDigit '\n' = false; decide
    have h1 : matchNum (a ++ '.' :: (b ++ '.' :: (c ++ t)))
        = some ('.' :: (b ++ '.' :: (c ++ t))) :=
      (matchNum_some_iff _ _).mpr ⟨a, hga, hdot, rfl⟩
    have h2 : matchDot ('.' :: (b ++ '.' :: (c ++ t))) = some (b ++ '.' :: (c ++ t)) :=
      (matchDot_some_iff _ _).mpr rfl
    have h3 : matchNum (b ++ '.' :: (c ++ t)) = some ('.' :: (c ++ t)) :=
      (matchNum_some_iff _ _).mpr ⟨b, hgb, hdot, rfl⟩
    have h4 : matchDot ('.' :: (c ++ t)) = some (c ++ t) :=
      (matchDot_some_iff _ _).mpr rfl
    have h5 : matchNum (c ++ t) = some t :=
      (matchNum_some_iff _ _).mpr ⟨c, hgc, hnl, rfl⟩
    have h6 : matchDollar t = true := (matchDollar_iff t).mpr ht
    simp only [matchTriple, h1, h2, h3, h4, h5, h6]

theorem splitDots_ne_nil : ∀ cs : List Char, splitDots cs ≠ []
  | [] => by simp [splitDots]
  | c :: cs => by
    unfold splitDots
    by_cases h : c = '.'
    · simp [h]
    · cases hs : splitDots cs with
      | nil => simp [h]
      | cons g gs => simp [h]

theorem dotJoin_splitDots : ∀ cs : List Char, dotJoin (splitDots cs) = cs
  | [] => rfl
  | c :: cs => by
    have ih := dotJoin_splitDots cs
    by_cases h : c = '.'
    · subst h
      cases hs : splitDots cs with
      | nil => exact absurd hs (splitDots_ne_nil cs)
      | cons g gs =>
        rw [hs] at ih
        show dotJoin (splitDots ('.' :: cs)) = '.' :: cs
        unfold splitDots
        rw [if_pos rfl, hs]
        show ([] : List Char) ++ '.' :: dotJoin (g :: gs) = '.' :: cs
        rw [List.nil_append, ih]
    · cases hs : splitDots cs with
      | nil => exact absurd hs (splitDots_ne_nil cs)
      | cons g gs =>
        rw [hs] at ih
        show dotJoin (splitDots (c :: cs)) = c :: cs
        unfold splitDots
        rw [if_neg h, hs]
        cases gs with
        | nil =>
          show (c :: g : List Char) = c :: cs
          exact congrArg (c :: ·) ih
        | cons g2 gs2 =>
          show (c :: g) ++ '.' :: dotJoin (g2 :: gs2) = c :: cs
          rw [List.cons_append]
          exact congrArg (c :: ·) ih

theorem no_dot_mem_splitDots : ∀ cs g, g ∈ splitDots cs → '.' ∉ g
  | [], g, hg => by
    simp only [splitDots, List.mem_singleton] at hg
    subst hg
    simp
  | c :: cs, g, hg => by
    by_cases h : c = '.'
    · subst h
      unfold splitDots at hg
      rw [if_pos rfl] at hg
      rcases List.mem_cons.mp hg with hge | hgm
      · subst hge; simp
      · exact no_dot_mem_splitDots cs g hgm
    · unfold splitDots at hg
      rw [if_neg h] at hg
      cases hs : splitDots cs with
      | nil => exact absurd hs (splitDots_ne_nil cs)
      | cons g0 gs =>
        rw [hs] at hg
        rcases List.mem_cons.mp hg with hge | hgm
        · subst hge
          intro hmem
          rcases List.mem_cons.mp hmem with he | hm
          · exact h he.symm
          · exact no_dot_mem_splitDots cs g0 (by rw [hs]; exact List.mem_cons_self g0 gs) hm
        · exact no_dot_mem_splitDots cs g (by rw [hs]; exact List.mem_cons_of_mem g0 hgm)

theorem splitDots_no_dot : ∀ a : List Char, '.' ∉ a → splitDots a = [a]
  | [], _ => rfl
  | c :: a, h => by
    have hc : ¬ c = '.' := fun he => h (he ▸ List.mem_cons_self c a)
    have ha : '.' ∉ a := fun hm => h (List.mem_cons_of_mem c hm)
    have ih := splitDots_no_dot a ha
    show (if c = '.' then [] :: splitDots a
          else
            match splitDots a with
            | [] => [[c]]
            | g :: gs => (c :: g) :: gs) = [c :: a]
    rw [if_neg hc, ih]

theorem splitDots_append_dot : ∀ a r : List Char, '.' ∉ a →
    splitDots (a ++ '.' :: r) = a :: splitDots r
  | [], r, _ => by
    show (if ('.' : Char) = '.' then [] :: splitDots r
          else
            match splitDots r with
            | [] => [['.']]
            | g :: gs => ('.' :: g) :: gs) = [] :: splitDots r
    rw [if_pos rfl]
  | c :: a, r, h => by
    have hc : ¬ c = '.' := fun he => h (he ▸ List.mem_cons_self c a)
    have ha : '.' ∉ a := fun hm => h (List.mem_cons_of_mem c hm)
    have ih := splitDots_append_dot a r ha
    show (if c = '.' then [] :: splitDots (a ++ '.' :: r)
          else
            match splitDots (a ++ '.' :: r) with
            | [] => [[c]]
            | g :: gs => (c :: g) :: gs) = (c :: a) :: splitDots r
    rw [if_neg hc, ih]

theorem not_dot_of_digits (a : List Char) (h : a.all isAsciiDigit = true) : '.' ∉ a := by
  intro hm
  have := List.all_eq_true.mp h '.' hm
  simp [isAsciiDigit] at this

/-- Characterization of the spec-side triple as a decomposition of the input. -/
theorem specTriple_iff (cs : List Char) :
    specTriple cs = true ↔
      ∃ a b c, digitsGroup a = true ∧ digitsGroup b = true ∧ digitsGroup c = true ∧
        cs = a ++ '.' :: (b ++ '.' :: c) := by
  constructor
  · intro h
    unfold specTriple at h
    split at h
    · rename_i a b c hs
      have hj := dotJoin_splitDots cs
      rw [hs] at hj
      have hj2 : a ++ '.' :: (b ++ '.' :: c) = cs := hj
      simp only [Bool.and_eq_true] at h
      exact ⟨a, b, c, h.1.1, h.1.2, h.2, hj2.symm⟩
    · exact absurd h (by simp)
  · rintro ⟨a, b, c, hga, hgb, hgc, rfl⟩
    have hna : '.' ∉ a := not_dot_of_digits a (by
      simp only [digitsGroup, Bool.and_eq_true] at hga; exact hga.2)
    have hnb : '.' ∉ b := not_dot_of_digits b (by
      simp only [digitsGroup, Bool.and_eq_true] at hgb; exact hgb.2)
    have hnc : '.' ∉ c := not_dot_of_digits c (by
      simp only [digitsGroup, Bool.and_eq_true] at hgc; exact hgc.2)
    unfold specTriple
    rw [splitDots_append_dot a _ hna, splitDots_append_dot b _ hnb, splitDots_no_dot c hnc]
    simp [hga, hgb, hgc]

theorem strip_cons₂ (c d : Char) (cs : List Char) :
    stripTrailingNewline (c :: d :: cs) = c :: stripTrailingNewline (d :: cs) := rfl

theorem strip_singleton (c : Char) :
    stripTrailingNewline [c] = if c = '\n' then [] else [c] := rfl

theorem strip_append_newline : ∀ x : List Char, stripTrailingNewline (x ++ ['\n']) = x
  | [] => rfl
  | [c] => by
    show stripTrailingNewline (c :: '\n' :: []) = [c]
    rw [strip_cons₂, strip_singleton, if_pos rfl]
  | c :: d :: rest => by
    have ih := strip_append_newline (d :: rest)
    show stripTrailingNewline (c :: (d :: rest ++ ['\n'])) = c :: d :: rest
    rw [List.cons_append] at ih ⊢
    rw [show (c :: (d :: (rest ++ ['\n']))) = c :: d :: (rest ++ ['\n']) from rfl,
      strip_cons₂]
    exact congrArg (c :: ·) ih

theorem strip_append_of_ne : ∀ (x : List Char) (d : Char), d ≠ '\n' →
    stripTrailingNewline (x ++ [d]) = x ++ [d]
  | [], d, hd => by
    show stripTrailingNewline [d] = [d]
    rw [strip_singleton, if_neg hd]
  | c :: x, d, hd => by
    have ih := strip_append_of_ne x d hd
    cases x with
    | nil =>
      show stripTrailingNewline (c :: d :: []) = c :: d :: []
      rw [strip_cons₂, strip_singleton, if_neg hd]
    | cons e y =>
      show stripTrailingNewline (c :: (e :: y ++ [d])) = c :: (e :: y ++ [d])
      rw [List.cons_append] at ih ⊢
      rw [show (c :: (e :: (y ++ [d]))) = c :: e :: (y ++ [d]) from rfl, strip_cons₂]
      exact congrArg (c :: ·) ih

theorem strip_inv : ∀ cs : List Char,
    cs = stripTrailingNewline cs ∨ cs = stripTrailingNewline cs ++ ['\n']
  | [] => Or.inl rfl
  | [c] => by
    by_cases hc : c = '\n'
    · subst hc
      right
      rw [strip_singleton, if_pos rfl]
      rfl
    · left
      rw [strip_singleton, if_neg hc]
  | c :: d :: rest => by
    have ih := strip_inv (d :: rest)
    rw [strip_cons₂]
    rcases ih with ih | ih
    · exact Or.inl (congrArg (c :: ·) ih)
    · right
      rw [List.cons_append]
      exact congrArg (c :: ·) ih

/-- The matcher agrees with the spec predicate up to one trailing newline. -/
theorem matchTriple_eq (cs : List Char) :
    matchTriple cs = specTriple (stripTrailingNewline cs) := by
  cases h1 : matchTriple cs with
  | true =>
    obtain ⟨a, b, c, t, hga, hgb, hgc, ht, rfl⟩ := (matchTriple_iff cs).mp h1
    symm
    rcases ht with rfl | rfl
    · simp only [List.append_nil]
      have hcne : c ≠ [] := by
        intro hce; rw [hce] at hgc; simp [digitsGroup] at hgc
      obtain ⟨c0, d, rfl⟩ : ∃ c0 d, c = c0 ++ [d] := by
        rcases List.eq_nil_or_concat c with hce | ⟨c0, d, hcd⟩
        · exact absurd hce hcne
        · exact ⟨c0, d, by simpa [List.concat_eq_append] using hcd⟩
      have hall : (c0 ++ [d]).all isAsciiDigit = true := by
        simp only [digitsGroup, Bool.and_eq_true] at hgc
        exact hgc.2
      have hd : isAsciiDigit d = true := List.all_eq_true.mp hall d (by simp)
      have hdn : d ≠ '\n' := by
        intro he; rw [he] at hd; exact absurd hd (by decide)
      have hre : a ++ '.' :: (b ++ '.' :: (c0 ++ [d]))
          = (a ++ '.' :: (b ++ '.' :: c0)) ++ [d] := by simp
      rw [hre, strip_append_of_ne _ d hdn, ← hre]
      exact (specTriple_iff _).mpr ⟨a, b, c0 ++ [d], hga, hgb, hgc, rfl⟩
    · have hre : a ++ '.' :: (b ++ '.' :: (c ++ ['\n']))
          = (a ++ '.' :: (b ++ '.' :: c)) ++ ['\n'] := by simp
      rw [hre, strip_append_newline]
      exact (specTriple_iff _).mpr ⟨a, b, c, hga, hgb, hgc, rfl⟩
  | false =>
    symm
    by_contra hs
    simp only [Bool.not_eq_false] at hs
    obtain ⟨a, b, c, hga, hgb, hgc, hd⟩ := (specTriple_iff _).mp hs
    rcases strip_inv cs with hi | hi
    · have hm : matchTriple cs = true := (matchTriple_iff cs).mpr
        ⟨a, b, c, [], hga, hgb, hgc, Or.inl rfl, by rw [hi, hd]; simp⟩
      rw [h1] at hm; exact Bool.false_ne_true hm
    · have hm : matchTriple cs = true := (matchTriple_iff cs).mpr
        ⟨a, b, c, ['\n'], hga, hgb, hgc, Or.inr rfl, by rw [hi, hd]; simp⟩
      rw [h1] at hm; exact Bool.false_ne_true hm

/-- The version filter equals the spec predicate amended by the newline quirk. -/
theorem isValidVersion_eq_specNL (s : String) : isValidVersion s = specValidVersionNL s := by
  unfold isValidVersion specValidVersionNL
  cases hd : s.data with
  | nil => rfl
  | cons c cs =>
    show (c == 'v' && matchTriple cs) = (c == 'v' && specTriple (stripTrailingNewline cs))
    rw [matchTriple_eq]

/-! ### Association list lemmas -/

theorem lookupA_setA_self {α : Type} (k : String) (v : α) :
    ∀ l : List (String × α), lookupA k (setA k v l) = some v
  | [] => by simp [setA, lookupA]
  | (k2, v2) :: rest => by
    by_cases h : k2 = k
    · simp [setA, lookupA, h]
    · simp [setA, lookupA, h, lookupA_setA_self k v rest]

theorem lookupA_setA_ne {α : Type} (k k2 : String) (v : α) (hk : k2 ≠ k) :
    ∀ l : List (String × α), lookupA k (setA k2 v l) = lookupA k l
  | [] => by simp [setA, lookupA, hk]
  | (k3, v3) :: rest => by
    by_cases h : k3 = k2
    · have h3 : k3 ≠ k := by rw [h]; exact hk
      simp [setA, lookupA, h, h3, hk]
    · simp only [setA, h, if_neg]
      by_cases h2 : k3 = k
      · simp [lookupA, h2]
      · simp [lookupA, h2, lookupA_setA_ne k k2 v hk rest]

theorem lookupA_updA_self {α : Type} (k : String) (f : α → α) :
    ∀ l : List (String × α), lookupA k (updA k f l) = (lookupA k l).map f
  | [] => by simp [updA, lookupA]
  | (k2, v2) :: rest => by
    by_cases h : k2 = k
    · simp [updA, lookupA, h]
    · simp [updA, lookupA, h, lookupA_updA_self k f rest]

theorem lookupA_updA_ne {α : Type} (k k2 : String) (f : α → α) (hk : k2 ≠ k) :
    ∀ l : List (String × α), lookupA k (updA k2 f l) = lookupA k l
  | [] => by simp [updA, lookupA]
  | (k3, v3) :: rest => by
    by_cases h : k3 = k2
    · have h3 : k3 ≠ k := by rw [h]; exact hk
      simp [updA, lookupA, h, h3, hk]
    · simp only [updA, h, if_neg]
      by_cases h2 : k3 = k
      · simp [lookupA, h2]
      · simp [lookupA, h2, lookupA_updA_ne k k2 f hk rest]

theorem lookupA_append_some {α : Type} (k : String) (v : α) :
    ∀ l l2 : List (String × α), lookupA k l = some v → lookupA k (l ++ l2) = some v
  | [], _, h => by simp [lookupA] at h
  | (k2, v2) :: rest, l2, h => by
    by_cases hk : k2 = k
    · simp only [lookupA, hk, if_pos] at h
      simp [lookupA, hk, h]
    · simp only [lookupA, hk, if_neg, not_false_iff] at h
      simp [lookupA, hk, lookupA_append_some k v rest l2 h]

theorem lookupA_append_none {α : Type} (k : String) :
    ∀ l l2 : List (String × α), lookupA k l = none → lookupA k (l ++ l2) = lookupA k l2
  | [], _, _ => rfl
  | (k2, v2) :: rest, l2, h => by
    by_cases hk : k2 = k
    · simp [lookupA, hk] at h
    · simp only [lookupA, hk, if_neg, not_false_iff] at h
      simp [lookupA, hk, lookupA_append_none k rest l2 h]

/-- Every metadata response is skipped, raises on decoding, or is recorded. -/
theorem metaResponse_trichotomy (r : MetaHttpResponse) :
    metaSkipped r = true ∨ (r.status = 200 ∧ r.body = none) ∨
      ∃ m, r.status = 200 ∧ r.body = some (.doc m) := by
  by_cases h404 : r.status = 404
  · left; simp [metaSkipped, h404]
  · by_cases h200 : r.status = 200
    · cases hb : r.body with
      | none => exact Or.inr (Or.inl ⟨h200, rfl⟩)
      | some mj =>
        cases mj with
        | emptyDoc => left; simp [metaSkipped, h200, hb]
        | doc m => exact Or.inr (Or.inr ⟨m, h200, rfl⟩)
    · left; simp [metaSkipped, h404, h200]

theorem processTag_invalid (prov : Provider) (p : PackageDesc) (tag : String)
    (s : RunState) (h : isValidVersion tag = false) :
    processTag prov p tag s = .ok s := by
  simp [processTag, h]

theorem processTag_keyerr (prov : Provider) (p : PackageDesc) (tag : String)
    (s : RunState) (hv : isValidVersion tag = true)
    (hl : lookupA p.id s.index = none) :
    processTag prov p tag s = .error s := by
  simp [processTag, hv, hl]

theorem processTag_hit (prov : Provider) (p : PackageDesc) (tag : String)
    (s : RunState) (rec : PackageRecord) (hv : isValidVersion tag = true)
    (hl : lookupA p.id s.index = some rec)
    (hhas : (lookupA tag rec.versions).isSome = true) :
    processTag prov p tag s = .ok (hitState p tag s) := by
  simp [processTag, hv, hl, hhas]

theorem processTag_skip (prov : Provider) (p : PackageDesc) (tag : String)
    (s : RunState) (rec : PackageRecord) (hv : isValidVersion tag = true)
    (hl : lookupA p.id s.index = some rec)
    (hhas : (lookupA tag rec.versions).isSome = false)
    (hskip : metaSkipped (prov.meta p.id tag) = true) :
    processTag prov p tag s = .ok (missState p tag s) := by
  by_cases h404 : (prov.meta p.id tag).status = 404
  · simp [processTag, hv, hl, hhas, h404]
  · by_cases h200 : (prov.meta p.id tag).status = 200
    · have hb : (prov.meta p.id tag).body = some .emptyDoc := by
        simp only [metaSkipped, h200] at hskip
        simpa [h404] using hskip
      simp [processTag, hv, hl, hhas, h404, h200, hb]
    · simp [processTag, hv, hl, hhas, h404, h200]

theorem processTag_badjson (prov : Provider) (p : PackageDesc) (tag : String)
    (s : RunState) (rec : PackageRecord) (hv : isValidVersion tag = true)
    (hl : lookupA p.id s.index = some rec)
    (hhas : (lookupA tag rec.versions).isSome = false)
    (h200 : (prov.meta p.id tag).status = 200)
    (hb : (prov.meta p.id tag).body = none) :
    processTag prov p tag s = .error (missState p tag s) := by
  simp [processTag, hv, hl, hhas, h200, hb]

theorem processTag_record (prov : Provider) (p : PackageDesc) (tag : String)
    (s : RunState) (rec : PackageRecord) (m : Metadata)
    (hv : isValidVersion tag = true)
    (hl : lookupA p.id s.index = some rec)
    (hhas : (lookupA tag rec.versions).isSome = false)
    (h200 : (prov.meta p.id tag).status = 200)
    (hb : (prov.meta p.id tag).body = some (.doc m)) :
    processTag prov p tag s =
      .ok { missState p tag s with
            index := updA p.id (recordUpd tag m) s.index } := by
  simp [processTag, hv, hl, hhas, h200, hb, missState]

theorem Preserves.refl (s : RunState) : Preserves s s :=
  ⟨fun _ r h => ⟨r, h, rfl, rfl, fun _ _ x => x⟩,
   ⟨[], by simp, by simp⟩⟩

theorem Preserves.of_same_index {s s2 : RunState} (hidx : s2.index = s.index)
    (new : List Event) (htr : s2.trace = s.trace ++ new)
    (hnf : ∀ pid tg, Event.metaFetch pid tg ∉ new) : Preserves s s2 := by
  refine ⟨?_, ⟨new, htr, fun pid tg hm => absurd hm (hnf pid tg)⟩⟩
  intro pid r hr
  exact ⟨r, by rw [hidx]; exact hr, rfl, rfl, fun _ _ x => x⟩

theorem Preserves.trans {s1 s2 s3 : RunState} (h12 : Preserves s1 s2)
    (h23 : Preserves s2 s3) : Preserves s1 s3 := by
  obtain ⟨ha, n1, ht1, hm1⟩ := h12
  obtain ⟨hb, n2, ht2, hm2⟩ := h23
  constructor
  · intro pid r hr
    obtain ⟨r2, hr2, hg2, hi2, hv2⟩ := ha pid r hr
    obtain ⟨r3, hr3, hg3, hi3, hv3⟩ := hb pid r2 hr2
    exact ⟨r3, hr3, hg3.trans hg2, hi3.trans hi2, fun tg vi h => hv3 tg vi (hv2 tg vi h)⟩
  · refine ⟨n1 ++ n2, by rw [ht2, ht1, List.append_assoc], ?_⟩
    intro pid tg hmem
    rcases List.mem_append.mp hmem with hmem | hmem
    · exact hm1 pid tg hmem
    · obtain ⟨hv, hnone⟩ := hm2 pid tg hmem
      refine ⟨hv, ?_⟩
      cases hvo : versionOf s1.index pid tg with
      | none => rfl
      | some vi =>
        exfalso
        cases hl : lookupA pid s1.index with
        | none => simp [versionOf, hl] at hvo
        | some r =>
          simp only [versionOf, hl] at hvo
          obtain ⟨r2, hr2, _, _, hv2⟩ := ha pid r hl
          have hkeep := hv2 tg vi hvo
          simp [versionOf, hr2, hkeep] at hnone

theorem processTag_preserves (prov : Provider) (p : PackageDesc) (tag : String)
    (s : RunState) : Preserves s (exceptState (processTag prov p tag s)) := by
  by_cases hv : isValidVersion tag = true
  swap
  · rw [processTag_invalid prov p tag s (by simpa using hv)]
    exact Preserves.refl s
  cases hl : lookupA p.id s.index with
  | none =>
    rw [processTag_keyerr prov p tag s hv hl]
    exact Preserves.refl s
  | some rec =>
    have hviNone : (lookupA tag rec.versions).isSome = false →
        versionOf s.index p.id tag = none := by
      intro hhas
      cases hlk : lookupA tag rec.versions with
      | none => simp [versionOf, hl, hlk]
      | some vi => rw [hlk] at hhas; simp at hhas
    by_cases hhas : (lookupA tag rec.versions).isSome = true
    · rw [processTag_hit prov p tag s rec hv hl hhas]
      exact Preserves.of_same_index rfl [.versionCached p.id tag] rfl
        (by intro pid tg hm; simp at hm)
    · have hhasf : (lookupA tag rec.versions).isSome = false := by simpa using hhas
      have hmf : ∀ pid tg, Event.metaFetch pid tg ∈ [Event.metaFetch p.id tag] →
          isValidVersion tg = true ∧ versionOf s.index pid tg = none := by
        intro pid tg hm
        simp only [List.mem_singleton, Event.metaFetch.injEq] at hm
        obtain ⟨rfl, rfl⟩ := hm
        exact ⟨hv, hviNone hhasf⟩
      rcases metaResponse_trichotomy (prov.meta p.id tag) with hskip | ⟨h200, hb⟩ | ⟨m, h200, hb⟩
      · rw [processTag_skip prov p tag s rec hv hl hhasf hskip]
        exact ⟨fun _ r h => ⟨r, h, rfl, rfl, fun _ _ x => x⟩,
          ⟨[.metaFetch p.id tag], rfl, hmf⟩⟩
      · rw [processTag_badjson prov p tag s rec hv hl hhasf h200 hb]
        exact ⟨fun _ r h => ⟨r, h, rfl, rfl, fun _ _ x => x⟩,
          ⟨[.metaFetch p.id tag], rfl, hmf⟩⟩
      · rw [processTag_record prov p tag s rec m hv hl hhasf h200 hb]
        refine ⟨?_, ⟨[.metaFetch p.id tag], rfl, hmf⟩⟩
        intro pid r hr
        by_cases hpid : pid = p.id
        · have hrrec : rec = r := by
            rw [hpid, hl] at hr
            exact Option.some.inj hr
          refine ⟨recordUpd tag m r, ?_, rfl, rfl, ?_⟩
          · rw [hpid]
            show lookupA p.id (updA p.id (recordUpd tag m) s.index) = _
            rw [lookupA_updA_self, hl, hrrec]
            rfl
          · intro tg vi hvi
            have htg : tag ≠ tg := by
              intro he
              rw [← he, ← hrrec] at hvi
              rw [hvi] at hhasf
              simp at hhasf
            show lookupA tg (setA tag _ r.versions) = some vi
            rw [lookupA_setA_ne tg tag _ htg]
            exact hvi
        · refine ⟨r, ?_, rfl, rfl, fun _ _ x => x⟩
          show lookupA pid (updA p.id (recordUpd tag m) s.index) = some r
          rw [lookupA_updA_ne pid p.id _ (fun he => hpid he.symm)]
          exact hr

theorem processTags_preserves (prov : Provider) (p : PackageDesc) :
    ∀ (tags : List String) (s : RunState),
      Preserves s (exceptState (processTags prov p tags s))
  | [], s => Preserves.refl s
  | t :: ts, s => by
    have h1 := processTag_preserves prov p t s
    unfold processTags
    cases hstep : processTag prov p t s with
    | error s2 =>
      rw [hstep] at h1
      exact h1
    | ok s2 =>
      rw [hstep] at h1
      exact Preserves.trans h1 (processTags_preserves prov p ts s2)

/-! ### Branch equations of the per-package body -/

theorem processPackage_404 (prov : Provider) (p : PackageDesc) (s : RunState)
    (hgp : p.git_provider = "github.com")
    (h404 : (listingResp prov p s).status = 404) :
    processPackage prov p s = .exit 2 s := by
  simp [processPackage, hgp, h404]

theorem processPackage_200 (prov : Provider) (p : PackageDesc) (s : RunState)
    (et : String) (content : List String)
    (hgp : p.git_provider = "github.com")
    (hst : (listingResp prov p s).status = 200)
    (hetag : (listingResp prov p s).etagHeader = some et)
    (hbody : (listingResp prov p s).body = some content) :
    processPackage prov p s =
      tagsPhase prov p (CacheEntry.mk et content)
        (freshState p (CacheEntry.mk et content) s) := by
  simp [processPackage, hgp, hst, hetag, hbody, listingUpd, freshState,
    lookupA_setA_self]

theorem processPackage_304 (prov : Provider) (p : PackageDesc) (s : RunState)
    (e : CacheEntry) (hgp : p.git_provider = "github.com")
    (hst : (listingResp prov p s).status = 304)
    (he : lookupA p.id s.cache = some e) :
    processPackage prov p s = tagsPhase prov p e (cachedState p s) := by
  simp [processPackage, hgp, hst, he, listingUpd, cachedState]

theorem upsert_preserves (p : PackageDesc) (s2 : RunState) :
    Preserves s2 (if (lookupA p.id s2.index).isSome then s2
      else { s2 with index := s2.index ++ [(p.id, headerRec p)] }) := by
  by_cases h : (lookupA p.id s2.index).isSome
  · rw [if_pos h]; exact Preserves.refl s2
  · rw [if_neg h]
    refine ⟨?_, ⟨[], by simp, by simp⟩⟩
    intro pid r hr
    exact ⟨r, lookupA_append_some pid r s2.index [(p.id, headerRec p)] hr,
      rfl, rfl, fun _ _ x => x⟩

theorem tagsPhase_preserves (prov : Provider) (p : PackageDesc)
    (entry : CacheEntry) (s2 : RunState) :
    Preserves s2 (resultState (tagsPhase prov p entry s2)) := by
  unfold tagsPhase
  have h1 := upsert_preserves p s2
  generalize hs3 : (if (lookupA p.id s2.index).isSome then s2
      else { s2 with index := s2.index ++ [(p.id, headerRec p)] }) = s3
  rw [hs3] at h1
  have h2 := processTags_preserves prov p (entry.content.map lastSegment) s3
  cases hres : processTags prov p (entry.content.map lastSegment) s3 with
  | error s4 =>
    rw [hres] at h2
    exact Preserves.trans h1 h2
  | ok s4 =>
    rw [hres] at h2
    exact Preserves.trans h1 (Preserves.trans h2
      (Preserves.of_same_index rfl [] (by simp [exceptState, resultState]) (by simp)))

theorem listingUpd_preserves (p : PackageDesc) (newEntry : Option CacheEntry)
    (is304 : Bool) (s : RunState) :
    Preserves s (listingUpd p newEntry is304 s) := by
  cases newEntry with
  | some entry =>
    cases is304 with
    | true =>
      exact Preserves.of_same_index rfl [.tagsFetched p.id, .tagsCached p.id]
        (by simp [listingUpd, cachedState, freshState]) (by intro pid tg hm; simp at hm)
    | false =>
      exact Preserves.of_same_index rfl [.tagsFetched p.id]
        (by simp [listingUpd, freshState]) (by intro pid tg hm; simp at hm)
  | none =>
    cases is304 with
    | true =>
      exact Preserves.of_same_index rfl [.tagsCached p.id]
        (by simp [listingUpd, cachedState]) (by intro pid tg hm; simp at hm)
    | false => exact Preserves.refl s

theorem processPackage_preserves (prov : Provider) (p : PackageDesc) (s : RunState) :
    Preserves s (resultState (processPackage prov p s)) := by
  unfold processPackage
  by_cases hgp : p.git_provider = "github.com"
  swap
  · rw [if_neg hgp]; exact Preserves.refl s
  rw [if_pos hgp]
  split
  · exact Preserves.refl s
  · exact Preserves.refl s
  · split
    · exact Preserves.refl s
    · split
      · exact Preserves.refl s
      · rename_i newEntry _
        split
        · exact listingUpd_preserves p newEntry _ s
        · rename_i entry _
          exact Preserves.trans (listingUpd_preserves p newEntry _ s)
            (tagsPhase_preserves prov p entry _)

theorem runPackages_preserves (prov : Provider) :
    ∀ (pkgs : List PackageDesc) (s : RunState),
      Preserves s (resultState (runPackages prov pkgs s))
  | [], s => Preserves.refl s
  | p :: ps, s => by
    have h1 := processPackage_preserves prov p s
    unfold runPackages
    cases hstep : processPackage prov p s with
    | ok s2 =>
      rw [hstep] at h1
      exact Preserves.trans h1 (runPackages_preserves prov ps s2)
    | exit c s2 =>
      rw [hstep] at h1
      exact h1
    | crash s2 =>
      rw [hstep] at h1
      exact h1

/-! ## Claim C2: version records are write-once -/

/-- C2: for every package and version tag, once a Version Record is stored in
the Index Document for that (package, tag) pair, any further engine
processing from that state, within the run or in a later run started from the
persisted state, leaves that record unchanged (the versions mapping only
grows, entries are never overwritten or removed), and never issues another
metadata fetch for that (package, tag). -/
theorem c2_version_records_immutable (prov : Provider) (pkgs : List PackageDesc)
    (s : RunState) (pid tag : String) (vi : VersionInfo)
    (hstored : versionOf s.index pid tag = some vi) :
    versionOf (resultState (runPackages prov pkgs s)).index pid tag = some vi ∧
    (Event.metaFetch pid tag ∉ s.trace →
      Event.metaFetch pid tag ∉ (resultState (runPackages prov pkgs s)).trace) := by
  obtain ⟨ha, new, htr, hmf⟩ := runPackages_preserves prov pkgs s
  constructor
  · cases hl : lookupA pid s.index with
    | none => simp [versionOf, hl] at hstored
    | some r =>
      simp only [versionOf, hl] at hstored
      obtain ⟨r2, hr2, _, _, hv2⟩ := ha pid r hl
      simp [versionOf, hr2, hv2 tag vi hstored]
  · intro hnot hmem
    rw [htr] at hmem
    rcases List.mem_append.mp hmem with hmem | hmem
    · exact hnot hmem
    · obtain ⟨_, hnone⟩ := hmf pid tag hmem
      rw [hstored] at hnone
      simp at hnone

/-- Witness for C2 at a concrete stored record and a concrete run. -/
theorem c2_version_records_immutable_witness :
    versionOf w2state.index "a" "v1.0.0" = some w2vi ∧
    (versionOf (resultState (runPackages w2prov [w2pkg] w2state)).index
        "a" "v1.0.0" = some w2vi ∧
      (Event.metaFetch "a" "v1.0.0" ∉ w2state.trace →
        Event.metaFetch "a" "v1.0.0" ∉
          (resultState (runPackages w2prov [w2pkg] w2state)).trace)) :=
  ⟨by decide,
   c2_version_records_immutable w2prov [w2pkg] w2state "a" "v1.0.0" w2vi (by decide)⟩

/-! ## Claim C9: invalid tags never reach the metadata fetch -/

/-- C9: for every tag the version filter rejects, no metadata fetch is ever
issued for that tag during an engine run: every metadata fetch event in the
trace carries a tag the filter accepts. -/
theorem c9_no_fetch_for_invalid_tags (prov : Provider) (pkgs : List PackageDesc)
    (cache0 : List (String × CacheEntry)) (index0 : IndexDoc) (pid tag : String)
    (hmem : Event.metaFetch pid tag ∈
      (resultState (runEngine prov pkgs cache0 index0)).trace) :
    isValidVersion tag = true := by
  obtain ⟨_, new, htr, hmf⟩ := runPackages_preserves prov pkgs (initState cache0 index0)
  rw [runEngine] at hmem
  rw [htr] at hmem
  rcases List.mem_append.mp hmem with hmem | hmem
  · simp [initState] at hmem
  · exact (hmf pid tag hmem).1

/-- Witness for C9 at a concrete run that issues a metadata fetch. -/
theorem c9_no_fetch_for_invalid_tags_witness :
    Event.metaFetch "a" "v1.0.0" ∈
      (resultState (runEngine w9prov [w9pkg] [] [])).trace ∧
    isValidVersion "v1.0.0" = true :=
  ⟨by decide,
   c9_no_fetch_for_invalid_tags w9prov [w9pkg] [] [] "a" "v1.0.0" (by decide)⟩

/-! ## Claim C4: repository not found aborts the whole run -/

/-- C4: when the engine reaches a package whose tag-listing fetch returns
HTTP 404, the whole run terminates with exit code 2 and unchanged state; the
remaining packages are not processed (the result does not depend on them). -/
theorem c4_repository_not_found_fatal (prov : Provider) (p : PackageDesc)
    (rest : List PackageDesc) (s : RunState)
    (hgp : p.git_provider = "github.com")
    (h404 : (listingResp prov p s).status = 404) :
    runPackages prov (p :: rest) s = .exit 2 s := by
  unfold runPackages
  rw [processPackage_404 prov p s hgp h404]

/-- Witness for C4 at a concrete run of two packages. -/
theorem c4_repository_not_found_fatal_witness :
    w4pkg.git_provider = "github.com" ∧
    (listingResp w4prov w4pkg (initState [] [])).status = 404 ∧
    runPackages w4prov [w4pkg, w4pkg2] (initState [] []) = .exit 2 (initState [] []) :=
  ⟨rfl, rfl,
   c4_repository_not_found_fatal w4prov w4pkg [w4pkg2] (initState [] []) rfl rfl⟩

/-! ## Claim C6: the version filter -/

/-- C6 counterexample: the filter accepts a tag that is not `v` followed by
three dot-separated integers and nothing else: a trailing newline is
tolerated by the Python `$` anchor, so the claimed equivalence fails. -/
theorem c6_version_filter_counterexample :
    isValidVersion "v1.2.3\n" = true ∧ specValidVersion "v1.2.3\n" = false :=
  ⟨by decide, by decide⟩

/-- C6 (amended): the filter accepts a tag iff it is the character `v`
followed by exactly three dot-separated non-negative decimal integers and
nothing else, except that one trailing newline is also tolerated (the Python
`$` anchor); in particular it accepts v1.2.3 and rejects v1.2, 1.2.3 and
v1.2.3-beta. -/
theorem c6_version_filter :
    (∀ s : String, isValidVersion s = specValidVersionNL s) ∧
    isValidVersion "v1.2.3" = true ∧ isValidVersion "v1.2" = false ∧
    isValidVersion "1.2.3" = false ∧ isValidVersion "v1.2.3-beta" = false :=
  ⟨isValidVersion_eq_specNL, by decide, by decide, by decide, by decide⟩

theorem compatFor_eq_default (m : Metadata) (h : hasComposeEntry m = false) :
    compatFor m = NO_COMPATIBILITY_DATA := by
  unfold compatFor
  cases hc : m.compatibility with
  | none => rfl
  | some compat =>
    simp only [hasComposeEntry, hc] at h
    simp [h]

/-! ## Claim C7: default compatibility substitution -/

/-- C7: when successfully fetched and decoded metadata has no compatibility
field, or its compatibility field has no compose entry, the stored Version
Record carries exactly the default range: minimum v0.0.0 and maximum v0.9.9
for compose. -/
theorem c7_default_compatibility (prov : Provider) (p : PackageDesc)
    (tag : String) (s : RunState) (rec : PackageRecord) (m : Metadata)
    (hv : isValidVersion tag = true)
    (hl : lookupA p.id s.index = some rec)
    (hhas : (lookupA tag rec.versions).isSome = false)
    (h200 : (prov.meta p.id tag).status = 200)
    (hb : (prov.meta p.id tag).body = some (.doc m))
    (hnc : hasComposeEntry m = false) :
    ∃ s2, processTag prov p tag s = .ok s2 ∧
      versionOf s2.index p.id tag =
        some { dependencies := m.dependencies,
               compatibility := NO_COMPATIBILITY_DATA } := by
  refine ⟨_, processTag_record prov p tag s rec m hv hl hhas h200 hb, ?_⟩
  show versionOf (updA p.id (recordUpd tag m) s.index) p.id tag = _
  simp [versionOf, lookupA_updA_self, hl, recordUpd, lookupA_setA_self,
    compatFor_eq_default m hnc]

/-- Witness for C7 at a concrete metadata document with no compatibility. -/
theorem c7_default_compatibility_witness :
    isValidVersion "v1.0.0" = true ∧
    lookupA w7pkg.id w7state.index = some (headerRec w7pkg) ∧
    (lookupA "v1.0.0" (headerRec w7pkg).versions).isSome = false ∧
    (w7prov.meta w7pkg.id "v1.0.0").status = 200 ∧
    (w7prov.meta w7pkg.id "v1.0.0").body = some (.doc w7meta) ∧
    hasComposeEntry w7meta = false ∧
    (∃ s2, processTag w7prov w7pkg "v1.0.0" w7state = .ok s2 ∧
      versionOf s2.index w7pkg.id "v1.0.0" =
        some { dependencies := w7meta.dependencies,
               compatibility := NO_COMPATIBILITY_DATA }) :=
  ⟨by decide, by decide, by decide, by decide, by decide, by decide,
   c7_default_compatibility w7prov w7pkg "v1.0.0" w7state (headerRec w7pkg) w7meta
     (by decide) (by decide) (by decide) (by decide) (by decide) (by decide)⟩

/-! ## Claim C8: what a successful metadata fetch overwrites -/

/-- C8 counterexample: a successful metadata fetch records the version and
overwrites the name, but leaves `icon` and `git` untouched: the resulting
record keeps the old icon and old owner, not anything from the metadata or
the descriptor, refuting the claim that `git` and `icon` are overwritten. -/
theorem c8_record_version_counterexample :
    ((lookupA "a" (resultState
        (runEngine c8prov [c8pkg] [] [("a", c8oldrec)])).index).map
      PackageRecord.name = some (some "Demo")) ∧
    ((lookupA "a" (resultState
        (runEngine c8prov [c8pkg] [] [("a", c8oldrec)])).index).map
      (fun r => (r.versions.map Prod.fst)) = some ["v1.0.0"]) ∧
    ((lookupA "a" (resultState
        (runEngine c8prov [c8pkg] [] [("a", c8oldrec)])).index).map
      PackageRecord.icon = some "old") ∧
    ((lookupA "a" (resultState
        (runEngine c8prov [c8pkg] [] [("a", c8oldrec)])).index).map
      (fun r => r.git.owner) = some "oldowner") ∧
    c8pkg.icon = "new" ∧ c8pkg.git_owner = "newowner" :=
  ⟨by decide, by decide, by decide, by decide, rfl, rfl⟩

/-- C8 (amended): on every successful metadata fetch that records a Version
Record, the operation overwrites only the `name` and `description` fields of
the Package Record from the metadata (last-write-wins across tags in tag
order) and inserts the Version Record for the tag; `git` and `icon` are not
touched by the operation (they are set from the package descriptor only when
the record is first created). -/
theorem c8_record_version_updates (prov : Provider) (p : PackageDesc)
    (tag : String) (s : RunState) (rec : PackageRecord) (m : Metadata)
    (hv : isValidVersion tag = true)
    (hl : lookupA p.id s.index = some rec)
    (hhas : (lookupA tag rec.versions).isSome = false)
    (h200 : (prov.meta p.id tag).status = 200)
    (hb : (prov.meta p.id tag).body = some (.doc m)) :
    processTag prov p tag s =
      .ok { missState p tag s with index := updA p.id (recordUpd tag m) s.index } ∧
    lookupA p.id (updA p.id (recordUpd tag m) s.index) =
      some { rec with
             name := some m.name,
             description := some m.description,
             versions := setA tag { dependencies := m.dependencies,
                                    compatibility := compatFor m } rec.versions } := by
  refine ⟨processTag_record prov p tag s rec m hv hl hhas h200 hb, ?_⟩
  rw [lookupA_updA_self, hl]
  rfl

/-- Witness for C8 (amended) at a concrete record and metadata document. -/
theorem c8_record_version_updates_witness :
    isValidVersion "v1.0.0" = true ∧
    lookupA c8pkg.id w8state.index = some c8oldrec ∧
    (lookupA "v1.0.0" c8oldrec.versions).isSome = false ∧
    (c8prov.meta c8pkg.id "v1.0.0").status = 200 ∧
    (c8prov.meta c8pkg.id "v1.0.0").body = some (.doc c8meta) ∧
    (processTag c8prov c8pkg "v1.0.0" w8state =
      .ok { missState c8pkg "v1.0.0" w8state with
            index := updA c8pkg.id (recordUpd "v1.0.0" c8meta) w8state.index } ∧
     lookupA c8pkg.id (updA c8pkg.id (recordUpd "v1.0.0" c8meta) w8state.index) =
      some { c8oldrec with
             name := some c8meta.name,
             description := some c8meta.description,
             versions := setA "v1.0.0"
               { dependencies := c8meta.dependencies,
                 compatibility := compatFor c8meta } c8oldrec.versions }) :=
  ⟨by decide, by decide, by decide, by decide, by decide,
   c8_record_version_updates c8prov c8pkg "v1.0.0" w8state c8oldrec c8meta
     (by decide) (by decide) (by decide) (by decide) (by decide)⟩

/-! ## Claim C3: the quota-exhausted abort is dead code -/

/-- C3 (code bug): a tag-listing response with HTTP 401 and the
X-RateLimit-Remaining header "0" does not terminate the run with exit code 1.
The script compares the header value, a string, with the integer 0, which is
always false in Python, so the quota branch is dead code: here the run keeps
going after the quota signal, fetches metadata for the stale cached tag,
processes the second package, and completes with exit code 0. -/
theorem c3_quota_check_dead_code :
    pyEq (.str "0") (.int 0) = false ∧
    exitCodeOf (runEngine c3prov [c3pkgA, c3pkgB] c3cache []) = some 0 ∧
    (resultState (runEngine c3prov [c3pkgA, c3pkgB] c3cache [])).stats.numPackages = 2 ∧
    Event.metaFetch "a" "v1.0.0" ∈
      (resultState (runEngine c3prov [c3pkgA, c3pkgB] c3cache [])).trace :=
  ⟨rfl, by decide, by decide, by decide⟩

/-! ## Claim C5: an undecodable metadata body crashes the run -/

/-- C5 (code bug): when the metadata body of one tag cannot be decoded,
`response.json()` raises and the run aborts with a traceback instead of
skipping only that tag: the run has no exit code 0, and the subsequent tag of
the same package is never processed or recorded. -/
theorem c5_undecodable_metadata_crashes :
    exitCodeOf (runEngine c5prov [c5pkg] [] []) = none ∧
    versionOf (resultState (runEngine c5prov [c5pkg] [] [])).index "a" "v1.0.1" = none ∧
    (resultState (runEngine c5prov [c5pkg] [] [])).stats.numPackages = 0 :=
  ⟨by decide, by decide, by decide⟩

/-! ## The tag loop when nothing new is recorded

When every valid tag in the list either already has a version record or gets
a skipped metadata response, the tag loop completes and changes neither the
index nor the cache; the trace grows by hit events and by fetch events for
the tags that were absent and skipped. -/

theorem processTags_no_record (prov : Provider) (p : PackageDesc) :
    ∀ (tags : List String) (s : RunState),
      (lookupA p.id s.index).isSome = true →
      (∀ t ∈ tags, isValidVersion t = true →
        (versionOf s.index p.id t).isSome = true ∨
          metaSkipped (prov.meta p.id t) = true) →
      ∃ s2 new, processTags prov p tags s = .ok s2 ∧
        s2.index = s.index ∧ s2.cache = s.cache ∧ s2.trace = s.trace ++ new ∧
        (∀ pid tg, Event.metaFetch pid tg ∈ new →
          pid = p.id ∧ tg ∈ tags ∧ isValidVersion tg = true ∧
            versionOf s.index p.id tg = none) ∧
        (∀ t ∈ tags, isValidVersion t = true →
          (versionOf s.index p.id t).isSome = true →
            Event.versionCached p.id t ∈ new)
  | [], s, hpres, hcond =>
    ⟨s, [], rfl, rfl, rfl, by simp, by simp, by simp⟩
  | t :: ts, s, hpres, hcond => by
    obtain ⟨rec, hl⟩ := Option.isSome_iff_exists.mp hpres
    by_cases hv : isValidVersion t = true
    · by_cases hhas : (lookupA t rec.versions).isSome = true
      · -- version already recorded: cache hit
        have hstep := processTag_hit prov p t s rec hv hl hhas
        have hpres2 : (lookupA p.id (hitState p t s).index).isSome = true := hpres
        have hcond2 : ∀ t2 ∈ ts, isValidVersion t2 = true →
            (versionOf (hitState p t s).index p.id t2).isSome = true ∨
              metaSkipped (prov.meta p.id t2) = true :=
          fun t2 ht2 hv2 => hcond t2 (List.mem_cons_of_mem t ht2) hv2
        obtain ⟨s2, new, hrun, hidx, hc, htr, hmf, hvc⟩ :=
          processTags_no_record prov p ts (hitState p t s) hpres2 hcond2
        refine ⟨s2, Event.versionCached p.id t :: new, ?_, hidx, hc, ?_, ?_, ?_⟩
        · unfold processTags
          rw [hstep]
          exact hrun
        · rw [htr]
          show (hitState p t s).trace ++ new
            = s.trace ++ (Event.versionCached p.id t :: new)
          simp [hitState]
        · intro pid tg hmem
          rcases List.mem_cons.mp hmem with he | hmem
          · simp at he
          · obtain ⟨h1, h2, h3, h4⟩ := hmf pid tg hmem
            exact ⟨h1, List.mem_cons_of_mem t h2, h3, h4⟩
        · intro t2 ht2 hv2 hsome
          rcases List.mem_cons.mp ht2 with he | ht2
          · subst he
            exact List.mem_cons_self _ _
          · exact List.mem_cons_of_mem _ (hvc t2 ht2 hv2 hsome)
      · -- the version record is absent: the response must be skipped
        have hvnone : versionOf s.index p.id t = none := by
          cases hlk : lookupA t rec.versions with
          | none => simp [versionOf, hl, hlk]
          | some vi => rw [hlk] at hhas; simp at hhas
        have hskip : metaSkipped (prov.meta p.id t) = true := by
          rcases hcond t (List.mem_cons_self t ts) hv with hsome | hskip
          · rw [hvnone] at hsome; simp at hsome
          · exact hskip
        have hhasf : (lookupA t rec.versions).isSome = false := by simpa using hhas
        have hstep := processTag_skip prov p t s rec hv hl hhasf hskip
        have hpres2 : (lookupA p.id (missState p t s).index).isSome = true := hpres
        have hcond2 : ∀ t2 ∈ ts, isValidVersion t2 = true →
            (versionOf (missState p t s).index p.id t2).isSome = true ∨
              metaSkipped (prov.meta p.id t2) = true :=
          fun t2 ht2 hv2 => hcond t2 (List.mem_cons_of_mem t ht2) hv2
        obtain ⟨s2, new, hrun, hidx, hc, htr, hmf, hvc⟩ :=
          processTags_no_record prov p ts (missState p t s) hpres2 hcond2
        refine ⟨s2, Event.metaFetch p.id t :: new, ?_, hidx, hc, ?_, ?_, ?_⟩
        · unfold processTags
          rw [hstep]
          exact hrun
        · rw [htr]
          show (missState p t s).trace ++ new
            = s.trace ++ (Event.metaFetch p.id t :: new)
          simp [missState]
        · intro pid tg hmem
          rcases List.mem_cons.mp hmem with he | hmem
          · simp only [Event.metaFetch.injEq] at he
            refine ⟨he.1, ?_, ?_, ?_⟩
            · rw [he.2]; exact List.mem_cons_self t ts
            · rw [he.2]; exact hv
            · rw [he.2]; exact hvnone
          · obtain ⟨h1, h2, h3, h4⟩ := hmf pid tg hmem
            exact ⟨h1, List.mem_cons_of_mem t h2, h3, h4⟩
        · intro t2 ht2 hv2 hsome
          rcases List.mem_cons.mp ht2 with he | ht2
          · subst he
            rw [hvnone] at hsome
            simp at hsome
          · exact List.mem_cons_of_mem _ (hvc t2 ht2 hv2 hsome)
    · -- the filter rejects the tag: nothing happens
      have hvf : isValidVersion t = false := by simpa using hv
      have hstep := processTag_invalid prov p t s hvf
      obtain ⟨s2, new, hrun, hidx, hc, htr, hmf, hvc⟩ :=
        processTags_no_record prov p ts s hpres
          (fun t2 ht2 hv2 => hcond t2 (List.mem_cons_of_mem t ht2) hv2)
      refine ⟨s2, new, ?_, hidx, hc, htr, ?_, ?_⟩
      · unfold processTags
        rw [hstep]
        exact hrun
      · intro pid tg hmem
        obtain ⟨h1, h2, h3, h4⟩ := hmf pid tg hmem
        exact ⟨h1, List.mem_cons_of_mem t h2, h3, h4⟩
      · intro t2 ht2 hv2 hsome
        rcases List.mem_cons.mp ht2 with he | ht2
        · subst he
          simp [hvf] at hv2
        · exact hvc t2 ht2 hv2 hsome

/-! ## Claim C10: the package header survives without any recorded version -/

/-- C10: when a package id is absent from the loaded index, its tag list is
fetched fresh, and every valid tag of the list gets a skipped metadata
response (not-found, or an undecoded-empty body) or there are no valid tags
at all, the package step still completes and the index afterwards contains
the package as a record with the descriptor git coordinates and icon, an
empty versions mapping, and no name and no description; and the package
stays present in the index for any continuation of the run, hence in the
document persisted when the run completes. -/
theorem c10_header_persisted_without_versions (prov : Provider) (p : PackageDesc)
    (s : RunState) (et : String) (refs : List String)
    (hgp : p.git_provider = "github.com")
    (hnew : lookupA p.id s.index = none)
    (hst : (listingResp prov p s).status = 200)
    (hetag : (listingResp prov p s).etagHeader = some et)
    (hbody : (listingResp prov p s).body = some refs)
    (hfail : ∀ t ∈ refs.map lastSegment, isValidVersion t = true →
      metaSkipped (prov.meta p.id t) = true) :
    ∃ s2, processPackage prov p s = .ok s2 ∧
      lookupA p.id s2.index =
        some { git := { provider := p.git_provider, owner := p.git_owner,
                        repository := p.git_repository },
               icon := p.icon, name := none, description := none,
               versions := [] } ∧
      ∀ rest, (lookupA p.id
        (resultState (runPackages prov rest s2)).index).isSome = true := by
  rw [processPackage_200 prov p s et refs hgp hst hetag hbody]
  unfold tagsPhase
  rw [if_neg (by
    show ¬ (lookupA p.id (freshState p (CacheEntry.mk et refs) s).index).isSome = true
    rw [show (freshState p (CacheEntry.mk et refs) s).index = s.index from rfl, hnew]
    simp)]
  obtain ⟨s4, new, hrun, hidx, -, -, -, -⟩ :=
    processTags_no_record prov p ((CacheEntry.mk et refs).content.map lastSegment)
      { freshState p (CacheEntry.mk et refs) s with
        index := (freshState p (CacheEntry.mk et refs) s).index
          ++ [(p.id, headerRec p)] }
      (by
        show (lookupA p.id (s.index ++ [(p.id, headerRec p)])).isSome = true
        rw [lookupA_append_none p.id s.index _ hnew]
        simp [lookupA])
      (by
        intro t ht hv
        exact Or.inr (hfail t ht hv))
  rw [hrun]
  have hlook : lookupA p.id s4.index = some (headerRec p) := by
    rw [hidx]
    show lookupA p.id (s.index ++ [(p.id, headerRec p)]) = _
    rw [lookupA_append_none p.id s.index _ hnew]
    simp [lookupA]
  refine ⟨{ s4 with stats :=
    { s4.stats with numPackages := s4.stats.numPackages + 1 } }, rfl, ?_, ?_⟩
  · show lookupA p.id s4.index = _
    rw [hlook]
    rfl
  · intro rest
    obtain ⟨ha, -, -, -⟩ := runPackages_preserves prov rest
      { s4 with stats := { s4.stats with numPackages := s4.stats.numPackages + 1 } }
    obtain ⟨r2, hr2, -, -, -⟩ := ha p.id (headerRec p) hlook
    simp [hr2]

/-- Witness for C10 at a concrete run whose only valid tag gets a 404
metadata response. -/
theorem c10_header_persisted_without_versions_witness :
    w10pkg.git_provider = "github.com" ∧
    lookupA w10pkg.id ((initState [] []).index) = none ∧
    (listingResp w10prov w10pkg (initState [] [])).status = 200 ∧
    (listingResp w10prov w10pkg (initState [] [])).etagHeader = some "E" ∧
    (listingResp w10prov w10pkg (initState [] [])).body
      = some ["refs/tags/v1.0.0", "refs/tags/main"] ∧
    (∀ t ∈ (["refs/tags/v1.0.0", "refs/tags/main"] : List String).map lastSegment,
      isValidVersion t = true → metaSkipped (w10prov.meta w10pkg.id t) = true) ∧
    (∃ s2, processPackage w10prov w10pkg (initState [] []) = .ok s2 ∧
      lookupA w10pkg.id s2.index =
        some { git := { provider := w10pkg.git_provider, owner := w10pkg.git_owner,
                        repository := w10pkg.git_repository },
               icon := w10pkg.icon, name := none, description := none,
               versions := [] } ∧
      ∀ rest, (lookupA w10pkg.id
        (resultState (runPackages w10prov rest s2)).index).isSome = true) :=
  ⟨rfl, rfl, rfl, rfl, rfl, by decide,
   c10_header_persisted_without_versions w10prov w10pkg (initState [] [])
     "E" ["refs/tags/v1.0.0", "refs/tags/main"]
     rfl rfl rfl rfl rfl (by decide)⟩

/-! ## Run analysis towards idempotence (claim C1) -/

theorem Preserves.versionOf_some {s s2 : RunState} (h : Preserves s s2)
    (pid tg : String) (vi : VersionInfo)
    (hv : versionOf s.index pid tg = some vi) :
    versionOf s2.index pid tg = some vi := by
  obtain ⟨ha, -⟩ := h
  cases hl : lookupA pid s.index with
  | none => simp [versionOf, hl] at hv
  | some r =>
    simp only [versionOf, hl] at hv
    obtain ⟨r2, hr2, -, -, hv2⟩ := ha pid r hl
    simp [versionOf, hr2, hv2 tg vi hv]

/-- A per-tag step that completes leaves the tag either recorded or with a
skipped response. -/
theorem processTag_ok_version (prov : Provider) (p : PackageDesc) (t : String)
    (s s2 : RunState) (hv : isValidVersion t = true)
    (hok : processTag prov p t s = .ok s2) :
    (versionOf s2.index p.id t).isSome = true ∨
      metaSkipped (prov.meta p.id t) = true := by
  cases hl : lookupA p.id s.index with
  | none =>
    rw [processTag_keyerr prov p t s hv hl] at hok
    simp at hok
  | some rec =>
    by_cases hhas : (lookupA t rec.versions).isSome = true
    · rw [processTag_hit prov p t s rec hv hl hhas] at hok
      obtain rfl := Except.ok.inj hok
      left
      show (versionOf s.index p.id t).isSome = true
      simp [versionOf, hl, hhas]
    · have hhasf : (lookupA t rec.versions).isSome = false := by simpa using hhas
      rcases metaResponse_trichotomy (prov.meta p.id t) with hskip | ⟨h200, hb⟩ | ⟨m, h200, hb⟩
      · exact Or.inr hskip
      · rw [processTag_badjson prov p t s rec hv hl hhasf h200 hb] at hok
        simp at hok
      · rw [processTag_record prov p t s rec m hv hl hhasf h200 hb] at hok
        obtain rfl := Except.ok.inj hok
        left
        show (versionOf (updA p.id (recordUpd t m) s.index) p.id t).isSome = true
        simp [versionOf, lookupA_updA_self, hl, recordUpd, lookupA_setA_self]

/-- A tag loop that completes leaves every valid tag of the list recorded or
with a skipped response. -/
theorem processTags_complete (prov : Provider) (p : PackageDesc) :
    ∀ (tags : List String) (s s4 : RunState),
      processTags prov p tags s = .ok s4 →
      ∀ t ∈ tags, isValidVersion t = true →
        (versionOf s4.index p.id t).isSome = true ∨
          metaSkipped (prov.meta p.id t) = true
  | [], _, _, _, t, ht, _ => absurd ht (by simp)
  | t0 :: ts, s, s4, hok, t, ht, hv => by
    unfold processTags at hok
    cases hstep : processTag prov p t0 s with
    | error s2 =>
      rw [hstep] at hok
      simp at hok
    | ok s2 =>
      rw [hstep] at hok
      have hok2 : processTags prov p ts s2 = .ok s4 := hok
      rcases List.mem_cons.mp ht with he | ht2
      · rcases processTag_ok_version prov p t0 s s2 (he ▸ hv) hstep with hsome | hskip
        · left
          obtain ⟨vi, hvi⟩ := Option.isSome_iff_exists.mp hsome
          have hpres := processTags_preserves prov p ts s2
          rw [hok2] at hpres
          have hvs : versionOf s4.index p.id t0 = some vi :=
            hpres.versionOf_some p.id t0 vi hvi
          rw [he, hvs]
          rfl
        · rw [he]
          exact Or.inr hskip
      · exact processTags_complete prov p ts s2 s4 hok2 t ht2 hv

/-- The per-tag step never touches the cache. -/
theorem processTag_cache (prov : Provider) (p : PackageDesc) (tag : String)
    (s : RunState) : (exceptState (processTag prov p tag s)).cache = s.cache := by
  by_cases hv : isValidVersion tag = true
  swap
  · rw [processTag_invalid prov p tag s (by simpa using hv)]
    rfl
  cases hl : lookupA p.id s.index with
  | none =>
    rw [processTag_keyerr prov p tag s hv hl]
    rfl
  | some rec =>
    by_cases hhas : (lookupA tag rec.versions).isSome = true
    · rw [processTag_hit prov p tag s rec hv hl hhas]
      rfl
    · have hhasf : (lookupA tag rec.versions).isSome = false := by simpa using hhas
      rcases metaResponse_trichotomy (prov.meta p.id tag) with hskip | ⟨h200, hb⟩ | ⟨m, h200, hb⟩
      · rw [processTag_skip prov p tag s rec hv hl hhasf hskip]
        rfl
      · rw [processTag_badjson prov p tag s rec hv hl hhasf h200 hb]
        rfl
      · rw [processTag_record prov p tag s rec m hv hl hhasf h200 hb]
        rfl

/-- The tag loop never touches the cache. -/
theorem processTags_cache (prov : Provider) (p : PackageDesc) :
    ∀ (tags : List String) (s : RunState),
      (exceptState (processTags prov p tags s)).cache = s.cache
  | [], _ => rfl
  | t :: ts, s => by
    have h1 := processTag_cache prov p t s
    unfold processTags
    cases hstep : processTag prov p t s with
    | error s2 =>
      rw [hstep] at h1
      exact h1
    | ok s2 =>
      rw [hstep] at h1
      exact (processTags_cache prov p ts s2).trans h1

theorem tagsPhase_ok_cache (prov : Provider) (p : PackageDesc) (entry : CacheEntry)
    (sm s2 : RunState) (hok : tagsPhase prov p entry sm = .ok s2) :
    s2.cache = sm.cache := by
  unfold tagsPhase at hok
  generalize hs3 : (if (lookupA p.id sm.index).isSome then sm
      else { sm with index := sm.index ++ [(p.id, headerRec p)] }) = s3 at hok
  cases hres : processTags prov p (entry.content.map lastSegment) s3 with
  | error s4 =>
    rw [hres] at hok
    simp at hok
  | ok s4 =>
    rw [hres] at hok
    have hs2 : s2 = { s4 with stats :=
        { s4.stats with numPackages := s4.stats.numPackages + 1 } } :=
      (StepResult.ok.inj hok).symm
    have hc := processTags_cache prov p (entry.content.map lastSegment) s3
    rw [hres] at hc
    rw [hs2]
    show s4.cache = sm.cache
    rw [show s4.cache = s3.cache from hc]
    rw [← hs3]
    by_cases hp : (lookupA p.id sm.index).isSome = true <;> simp [hp]

theorem tagsPhase_ok_settled (prov : Provider) (p : PackageDesc)
    (entry : CacheEntry) (sm s2 : RunState)
    (hentry : lookupA p.id sm.cache = some entry)
    (hok : tagsPhase prov p entry sm = .ok s2) :
    PkgSettled prov p.id s2 := by
  have hcache : s2.cache = sm.cache := tagsPhase_ok_cache prov p entry sm s2 hok
  unfold tagsPhase at hok
  generalize hs3 : (if (lookupA p.id sm.index).isSome then sm
      else { sm with index := sm.index ++ [(p.id, headerRec p)] }) = s3 at hok
  cases hres : processTags prov p (entry.content.map lastSegment) s3 with
  | error s4 =>
    rw [hres] at hok
    simp at hok
  | ok s4 =>
    rw [hres] at hok
    have hs2 : s2 = { s4 with stats :=
        { s4.stats with numPackages := s4.stats.numPackages + 1 } } :=
      (StepResult.ok.inj hok).symm
    have hpres3 : (lookupA p.id s3.index).isSome = true := by
      rw [← hs3]
      by_cases hp : (lookupA p.id sm.index).isSome = true
      · simp [hp]
      · have hnone : lookupA p.id sm.index = none := by
          cases h : lookupA p.id sm.index with
          | none => rfl
          | some r => rw [h] at hp; simp at hp
        rw [if_neg (by simp [hp])]
        show (lookupA p.id (sm.index ++ [(p.id, headerRec p)])).isSome = true
        rw [lookupA_append_none p.id sm.index _ hnone]
        simp [lookupA]
    have hprespres := processTags_preserves prov p (entry.content.map lastSegment) s3
    rw [hres] at hprespres
    have hpres4 : (lookupA p.id s4.index).isSome = true := by
      obtain ⟨r, hr⟩ := Option.isSome_iff_exists.mp hpres3
      obtain ⟨r2, hr2, -, -, -⟩ := hprespres.1 p.id r hr
      have hr2 : lookupA p.id s4.index = some r2 := hr2
      simp [hr2]
    have hcomp := processTags_complete prov p (entry.content.map lastSegment) s3 s4 hres
    refine ⟨entry, ?_, ?_, ?_⟩
    · rw [hcache]
      exact hentry
    · rw [hs2]
      exact hpres4
    · intro t ht hv
      rw [hs2]
      exact hcomp t ht hv

/-- A package step that completes settles the package. -/
theorem processPackage_ok_settled (prov : Provider) (p : PackageDesc)
    (s s2 : RunState) (hok : processPackage prov p s = .ok s2) :
    p.git_provider = "github.com" ∧ PkgSettled prov p.id s2 := by
  unfold processPackage at hok
  by_cases hgp : p.git_provider = "github.com"
  swap
  · rw [if_neg hgp] at hok
    simp at hok
  rw [if_pos hgp] at hok
  refine ⟨hgp, ?_⟩
  split at hok
  · simp at hok
  · simp at hok
  · split at hok
    · simp at hok
    · split at hok
      · simp at hok
      · split at hok
        · simp at hok
        · rename_i entry hentry
          exact tagsPhase_ok_settled prov p entry _ s2 hentry hok

theorem listingUpd_cache_other (p : PackageDesc) (newEntry : Option CacheEntry)
    (is304 : Bool) (s : RunState) (pid : String) (hne : p.id ≠ pid) :
    lookupA pid (listingUpd p newEntry is304 s).cache = lookupA pid s.cache := by
  cases newEntry with
  | some entry =>
    cases is304 <;>
      simp [listingUpd, freshState, cachedState, lookupA_setA_ne pid p.id entry hne]
  | none => cases is304 <;> simp [listingUpd, cachedState]

/-- A package step that completes does not disturb cache entries of other
package ids. -/
theorem processPackage_ok_cache_other (prov : Provider) (q : PackageDesc)
    (s s2 : RunState) (pid : String) (hok : processPackage prov q s = .ok s2)
    (hne : q.id ≠ pid) : lookupA pid s2.cache = lookupA pid s.cache := by
  unfold processPackage at hok
  by_cases hgp : q.git_provider = "github.com"
  swap
  · rw [if_neg hgp] at hok
    simp at hok
  rw [if_pos hgp] at hok
  split at hok
  · simp at hok
  · simp at hok
  · split at hok
    · simp at hok
    · split at hok
      · simp at hok
      · rename_i newEntry hne2
        split at hok
        · simp at hok
        · rename_i entry hentry
          have hc := tagsPhase_ok_cache prov q entry _ s2 hok
          rw [hc]
          exact listingUpd_cache_other q newEntry _ s pid hne

/-- Processing a further package keeps every settled package settled. -/
theorem processPackage_settles_mono (prov : Provider) (pid : String)
    (q : PackageDesc) (s s2 : RunState) (hok : processPackage prov q s = .ok s2)
    (hset : PkgSettled prov pid s) : PkgSettled prov pid s2 := by
  by_cases hq : q.id = pid
  · obtain ⟨-, hs⟩ := processPackage_ok_settled prov q s s2 hok
    rw [hq] at hs
    exact hs
  · obtain ⟨e, hce, hip, hcomp⟩ := hset
    have hpres := processPackage_preserves prov q s
    rw [hok] at hpres
    have hpres : Preserves s s2 := hpres
    refine ⟨e, ?_, ?_, ?_⟩
    · rw [processPackage_ok_cache_other prov q s s2 pid hok hq]
      exact hce
    · obtain ⟨r, hr⟩ := Option.isSome_iff_exists.mp hip
      obtain ⟨r2, hr2, -, -, -⟩ := hpres.1 pid r hr
      simp [hr2]
    · intro t ht hv
      rcases hcomp t ht hv with hsome | hskip
      · left
        obtain ⟨vi, hvi⟩ := Option.isSome_iff_exists.mp hsome
        rw [hpres.versionOf_some pid t vi hvi]
        rfl
      · exact Or.inr hskip

theorem runPackages_settled_mono (prov : Provider) (pid : String) :
    ∀ (pkgs : List PackageDesc) (s s2 : RunState),
      runPackages prov pkgs s = .ok s2 → PkgSettled prov pid s →
        PkgSettled prov pid s2
  | [], s, s2, hok, hset => by
    unfold runPackages at hok
    obtain rfl := StepResult.ok.inj hok
    exact hset
  | q :: ps, s, s2, hok, hset => by
    unfold runPackages at hok
    cases hstep : processPackage prov q s with
    | ok sm =>
      rw [hstep] at hok
      have hok2 : runPackages prov ps sm = .ok s2 := hok
      exact runPackages_settled_mono prov pid ps sm s2 hok2
        (processPackage_settles_mono prov pid q s sm hstep hset)
    | exit c sm =>
      rw [hstep] at hok
      simp at hok
    | crash sm =>
      rw [hstep] at hok
      simp at hok

/-- A run that completes settles every package of the list. -/
theorem runPackages_settled (prov : Provider) :
    ∀ (pkgs : List PackageDesc) (s s2 : RunState),
      runPackages prov pkgs s = .ok s2 →
      ∀ p ∈ pkgs, p.git_provider = "github.com" ∧ PkgSettled prov p.id s2
  | [], _, _, _, p, hp => absurd hp (by simp)
  | q :: ps, s, s2, hok, p, hp => by
    unfold runPackages at hok
    cases hstep : processPackage prov q s with
    | ok sm =>
      rw [hstep] at hok
      have hok2 : runPackages prov ps sm = .ok s2 := hok
      rcases List.mem_cons.mp hp with he | hp2
      · obtain ⟨hgp, hset⟩ := processPackage_ok_settled prov q s sm hstep
        rw [he]
        exact ⟨hgp, runPackages_settled_mono prov q.id ps sm s2 hok2 hset⟩
      · exact runPackages_settled prov ps sm s2 hok2 p hp2
    | exit c sm =>
      rw [hstep] at hok
      simp at hok
    | crash sm =>
      rw [hstep] at hok
      simp at hok

/-- A package whose listing answers not-modified and whose cached tags are
all settled is processed without touching the index or the cache: the
tag-listing is counted as a cache hit; recorded tags are skipped via the
version check; a metadata fetch happens only for an unrecorded (skipped)
tag. -/
theorem run2_package (prov : Provider) (p : PackageDesc) (s : RunState)
    (e : CacheEntry) (hgp : p.git_provider = "github.com")
    (h304 : (listingResp prov p s).status = 304)
    (hce : lookupA p.id s.cache = some e)
    (hip : (lookupA p.id s.index).isSome = true)
    (hcomp : ∀ t ∈ e.content.map lastSegment, isValidVersion t = true →
      (versionOf s.index p.id t).isSome = true ∨
        metaSkipped (prov.meta p.id t) = true) :
    ∃ s2 new, processPackage prov p s = .ok s2 ∧
      s2.index = s.index ∧ s2.cache = s.cache ∧
      s2.trace = s.trace ++ (Event.tagsCached p.id :: new) ∧
      (∀ pid tg, Event.metaFetch pid tg ∈ new →
        pid = p.id ∧ tg ∈ e.content.map lastSegment ∧ isValidVersion tg = true ∧
          versionOf s.index p.id tg = none) ∧
      (∀ t ∈ e.content.map lastSegment, isValidVersion t = true →
        (versionOf s.index p.id t).isSome = true →
          Event.versionCached p.id t ∈ new) := by
  rw [processPackage_304 prov p s e hgp h304 hce]
  unfold tagsPhase
  rw [if_pos (show (lookupA p.id (cachedState p s).index).isSome = true from hip)]
  obtain ⟨s4, new, hrun, hidx, hc, htr, hmf, hvc⟩ :=
    processTags_no_record prov p (e.content.map lastSegment) (cachedState p s)
      hip hcomp
  rw [hrun]
  refine ⟨{ s4 with stats :=
    { s4.stats with numPackages := s4.stats.numPackages + 1 } }, new,
    rfl, hidx, hc, ?_, hmf, hvc⟩
  show s4.trace = s.trace ++ (Event.tagsCached p.id :: new)
  rw [htr]
  show (cachedState p s).trace ++ new = s.trace ++ (Event.tagsCached p.id :: new)
  simp [cachedState]

/-- The second-run behavior over a package list: all listings not-modified,
all packages settled, so the run completes with the index and the cache
untouched; every tag-listing is a hit, every recorded valid tag is skipped
via the version check, and metadata fetches happen only for unrecorded
tags. -/
theorem run2_all (prov : Provider) :
    ∀ (pkgs : List PackageDesc) (s : RunState),
      (∀ p ∈ pkgs, p.git_provider = "github.com" ∧
        (listingResp prov p s).status = 304 ∧ PkgSettled prov p.id s) →
      ∃ s2 new, runPackages prov pkgs s = .ok s2 ∧
        s2.index = s.index ∧ s2.cache = s.cache ∧ s2.trace = s.trace ++ new ∧
        (∀ p ∈ pkgs, Event.tagsCached p.id ∈ new) ∧
        (∀ pid tg, Event.metaFetch pid tg ∈ new →
          ∃ p, p ∈ pkgs ∧ pid = p.id ∧ ∃ e, lookupA p.id s.cache = some e ∧
            tg ∈ e.content.map lastSegment ∧ isValidVersion tg = true ∧
            versionOf s.index p.id tg = none) ∧
        (∀ p ∈ pkgs, ∀ e, lookupA p.id s.cache = some e →
          ∀ t ∈ e.content.map lastSegment, isValidVersion t = true →
            (versionOf s.index p.id t).isSome = true →
              Event.versionCached p.id t ∈ new)
  | [], s, _ =>
    ⟨s, [], rfl, rfl, rfl, by simp, by simp, by simp, by simp⟩
  | p :: ps, s, hyp => by
    obtain ⟨hgp, h304, e, hce, hip, hcomp⟩ := hyp p (List.mem_cons_self p ps)
    obtain ⟨s2, new1, hstep, hidx1, hc1, htr1, hmf1, hvc1⟩ :=
      run2_package prov p s e hgp h304 hce hip hcomp
    have hyp2 : ∀ q ∈ ps, q.git_provider = "github.com" ∧
        (listingResp prov q s2).status = 304 ∧ PkgSettled prov q.id s2 := by
      intro q hq
      obtain ⟨hgq, h304q, eq2, hceq, hipq, hcompq⟩ :=
        hyp q (List.mem_cons_of_mem p hq)
      refine ⟨hgq, ?_, eq2, ?_, ?_, ?_⟩
      · show (prov.tags q.id ((lookupA q.id s2.cache).map CacheEntry.etag)).status = 304
        rw [hc1]
        exact h304q
      · rw [hc1]
        exact hceq
      · rw [hidx1]
        exact hipq
      · intro t ht hv
        rw [hidx1]
        exact hcompq t ht hv
    obtain ⟨s3, new2, hrun, hidx2, hc2, htr2, hmem2, hmf2, hvc2⟩ :=
      run2_all prov ps s2 hyp2
    refine ⟨s3, (Event.tagsCached p.id :: new1) ++ new2, ?_, ?_, ?_, ?_, ?_, ?_, ?_⟩
    · unfold runPackages
      rw [hstep]
      exact hrun
    · rw [hidx2, hidx1]
    · rw [hc2, hc1]
    · rw [htr2, htr1]
      simp
    · intro q hq
      rcases List.mem_cons.mp hq with he2 | hq2
      · rw [he2]
        simp
      · exact List.mem_append_right _ (hmem2 q hq2)
    · intro pid tg hmem
      rcases List.mem_append.mp hmem with hmem | hmem
      · rcases List.mem_cons.mp hmem with he2 | hmem
        · simp at he2
        · obtain ⟨h1, h2, h3, h4⟩ := hmf1 pid tg hmem
          exact ⟨p, List.mem_cons_self p ps, h1, e, hce, h2, h3, h4⟩
      · obtain ⟨q, hq, h1, e2, hce2, h2, h3, h4⟩ := hmf2 pid tg hmem
        rw [hc1] at hce2
        rw [hidx1] at h4
        exact ⟨q, List.mem_cons_of_mem p hq, h1, e2, hce2, h2, h3, h4⟩
    · intro q hq e2 hce2 t ht hv hsome
      rcases List.mem_cons.mp hq with he2 | hq2
      · subst he2
        have hee : e2 = e := by
          rw [hce2] at hce
          exact Option.some.inj hce
        rw [hee] at ht
        exact List.mem_append_left _
          (List.mem_cons_of_mem _ (hvc1 t ht hv hsome))
      · refine List.mem_append_right _ ?_
        refine hvc2 q hq2 e2 ?_ t ht hv ?_
        · rw [hc1]
          exact hce2
        · rw [hidx1]
          exact hsome

/-! ## Claim C1: second-run idempotence -/

/-- C1 (amended): running the engine twice in succession, with the provider
returning the same metadata and with the second-run tag-listing responses
reporting not-modified against the cached validation tokens, yields an
identical Index Document (structurally equal, hence byte-identical after
canonical sorted-key serialization) and an unchanged Tag Cache, and every
tag-listing call of the second run is counted as a cache hit; provided
additionally that every valid tag of every cached tag list received a
Version Record in the first run (no per-tag metadata fetch failed), the
second run issues no per-tag metadata fetch at all and skips every such tag
via the version check. -/
theorem c1_second_run_idempotent (prov1 prov2 : Provider)
    (pkgs : List PackageDesc) (cache0 : List (String × CacheEntry))
    (index0 : IndexDoc) (s1 : RunState)
    (hrun1 : runPackages prov1 pkgs (initState cache0 index0) = .ok s1)
    (hmeta : ∀ pid t, prov2.meta pid t = prov1.meta pid t)
    (h304 : ∀ p ∈ pkgs,
      (prov2.tags p.id ((lookupA p.id s1.cache).map CacheEntry.etag)).status
        = 304) :
    ∃ s2, runPackages prov2 pkgs (initState s1.cache s1.index) = .ok s2 ∧
      s2.index = s1.index ∧ s2.cache = s1.cache ∧
      (∀ p ∈ pkgs, Event.tagsCached p.id ∈ s2.trace) ∧
      ((∀ p ∈ pkgs, ∀ e, lookupA p.id s1.cache = some e →
          ∀ t ∈ e.content.map lastSegment, isValidVersion t = true →
            (versionOf s1.index p.id t).isSome = true) →
        (∀ pid tg, Event.metaFetch pid tg ∉ s2.trace) ∧
        (∀ p ∈ pkgs, ∀ e, lookupA p.id s1.cache = some e →
          ∀ t ∈ e.content.map lastSegment, isValidVersion t = true →
            Event.versionCached p.id t ∈ s2.trace)) := by
  have hsettled := runPackages_settled prov1 pkgs (initState cache0 index0) s1 hrun1
  have hyp : ∀ p ∈ pkgs, p.git_provider = "github.com" ∧
      (listingResp prov2 p (initState s1.cache s1.index)).status = 304 ∧
      PkgSettled prov2 p.id (initState s1.cache s1.index) := by
    intro p hp
    obtain ⟨hgp, e, hce, hip, hcomp⟩ := hsettled p hp
    refine ⟨hgp, h304 p hp, e, hce, hip, ?_⟩
    intro t ht hv
    rcases hcomp t ht hv with hsome | hskip
    · exact Or.inl hsome
    · right
      rw [hmeta p.id t]
      exact hskip
  obtain ⟨s2, new, hrun, hidx, hc, htr, hmem, hmf, hvc⟩ := run2_all prov2 pkgs _ hyp
  refine ⟨s2, hrun, hidx, hc, ?_, ?_⟩
  · intro p hp
    rw [htr]
    exact List.mem_append_right _ (hmem p hp)
  · intro hA
    constructor
    · intro pid tg hmem2
      rw [htr] at hmem2
      rcases List.mem_append.mp hmem2 with h | h
      · simp [initState] at h
      · obtain ⟨p, hp, -, e, hce, ht, hv, hnone⟩ := hmf pid tg h
        have hsome := hA p hp e hce tg ht hv
        have hnone2 : versionOf s1.index p.id tg = none := hnone
        rw [hnone2] at hsome
        simp at hsome
    · intro p hp e hce t ht hv
      rw [htr]
      exact List.mem_append_right _ (hvc p hp e hce t ht hv (hA p hp e hce t ht hv))

/-- Witness for C1 (amended) at a concrete pair of runs. -/
theorem c1_second_run_idempotent_witness :
    runPackages c1prov1 [c1pkg] (initState [] []) = .ok c1s1 ∧
    (∀ pid t, c1prov2.meta pid t = c1prov1.meta pid t) ∧
    (∀ p ∈ [c1pkg],
      (c1prov2.tags p.id ((lookupA p.id c1s1.cache).map CacheEntry.etag)).status
        = 304) ∧
    (∃ s2, runPackages c1prov2 [c1pkg] (initState c1s1.cache c1s1.index) = .ok s2 ∧
      s2.index = c1s1.index ∧ s2.cache = c1s1.cache ∧
      (∀ p ∈ [c1pkg], Event.tagsCached p.id ∈ s2.trace) ∧
      ((∀ p ∈ [c1pkg], ∀ e, lookupA p.id c1s1.cache = some e →
          ∀ t ∈ e.content.map lastSegment, isValidVersion t = true →
            (versionOf c1s1.index p.id t).isSome = true) →
        (∀ pid tg, Event.metaFetch pid tg ∉ s2.trace) ∧
        (∀ p ∈ [c1pkg], ∀ e, lookupA p.id c1s1.cache = some e →
          ∀ t ∈ e.content.map lastSegment, isValidVersion t = true →
            Event.versionCached p.id t ∈ s2.trace))) :=
  ⟨by decide, fun _ _ => rfl, by decide,
   c1_second_run_idempotent c1prov1 c1prov2 [c1pkg] [] [] c1s1
     (by decide) (fun _ _ => rfl) (by decide)⟩

/-- C1 counterexample: with identical provider data in both runs and the
second-run listing not-modified, the second run nevertheless issues a
per-tag metadata fetch for the valid tag whose metadata fetch had failed in
the first run, refuting the claim that every tag-listing hit makes every
valid tag skip via the version check with no per-tag metadata fetch. -/
theorem c1_second_run_counterexample :
    runEngine c1xprov1 [c1xpkg] [] [] = .ok c1xs1 ∧
    (∀ pid t, c1xprov2.meta pid t = c1xprov1.meta pid t) ∧
    (c1xprov2.tags c1xpkg.id
      ((lookupA c1xpkg.id c1xs1.cache).map CacheEntry.etag)).status = 304 ∧
    isValidVersion "v1.0.0" = true ∧
    Event.tagsCached c1xpkg.id ∈ (resultState (runPackages c1xprov2 [c1xpkg]
      (initState c1xs1.cache c1xs1.index))).trace ∧
    Event.metaFetch c1xpkg.id "v1.0.0" ∈ (resultState (runPackages c1xprov2
      [c1xpkg] (initState c1xs1.cache c1xs1.index))).trace :=
  ⟨by decide, fun _ _ => rfl, by decide, by decide, by decide, by decide⟩

